import Mathlib

set_option maxRecDepth 10000

/-!
Verification development for the `speech-to-text-python` repository.

Two components carry real logic and are embedded here:

* `app/voice_data.py` — derivation of speaker choices and numeric parameter
  ladders from a Piper voice configuration (`parse_voice_config`,
  `_extract_speaker_choices`, `_extract_numeric_choices`,
  `_generate_numeric_variations`, `_format_float`);
* `coqui_xtts_app/app/text_utils.py` — the text sanitizer (`sanitize_text`)
  and length guard (`ensure_text_within_limit`), together with the constants
  `ALLOWED_PUNCTUATION` and `MAX_TEXT_LENGTH` from
  `coqui_xtts_app/app/config.py`.

Modelling conventions:

* JSON-like Python values (the parsed voice configuration) are an inductive
  `Json`; Python dicts are association lists built left-to-right with
  Python's insertion semantics (first occurrence keeps its position, a later
  duplicate key overwrites the value in place).
* Python numbers are modelled as exact rationals (`ℚ`): the quantities the
  code manipulates (`round(x, 5)`, `f"{x:.3f}"`, parsing a short decimal
  string back with `float`) are decimal computations that the rationals
  represent exactly.
* Python `sorted` is a stable sort; it is modelled by `List.insertionSort`,
  which is stable.
* Code that can raise is modelled in `Except String`; `Option` models
  `None`-returning functions.
-/

/-- JSON-like Python value, as produced by `json.load`: Python's json module
yields `None`, `bool`, `int` (for integer literals), `float`, `str`, `list`
and `dict` with string keys. -/
inductive Json where
  | null : Json
  | bool (b : Bool) : Json
  | int (n : Int) : Json
  | float (q : ℚ) : Json
  | str (s : String) : Json
  | arr (elems : List Json) : Json
  | obj (fields : List (String × Json)) : Json

/-- A Python dict with string keys holding JSON-like values, in iteration
(insertion) order. -/
abbrev PyDict := List (String × Json)

/-- Python `dict.get(key)`: the value stored under `key`, if any.  A dict has
at most one entry per key; on a raw field list with duplicates the later
binding wins, as when `json.load` builds the dict. -/
def jsonGet (fields : PyDict) (key : String) : Option Json :=
  ((fields.filter (fun kv => kv.1 = key)).getLast?).map (fun kv => kv.2)

/-- Python `d[k] = v` on a dict: an existing key keeps its position and gets
the new value; a new key is appended at the end. -/
def pyDictInsert (d : List (String × α)) (k : String) (v : α) : List (String × α) :=
  if d.any (fun kv => kv.1 = k) then
    d.map (fun kv => if kv.1 = k then (k, v) else kv)
  else
    d ++ [(k, v)]

/-- Building a Python dict from a sequence of key/value pairs (a dict
comprehension): repeated insertion in order. -/
def pyDictOfList (l : List (String × α)) : List (String × α) :=
  l.foldl (fun acc kv => pyDictInsert acc kv.1 kv.2) []

/-- Python `d[k]` on a dict: the value under the first (and, in a dict,
only) entry with key `k`. -/
def dictLookup : List (String × α) → String → Option α
  | [], _ => none
  | kv :: rest, k => if kv.1 = k then some kv.2 else dictLookup rest k

/-- Digit string to natural number, base 10. -/
def digitsToNat (l : List Char) : ℕ :=
  l.foldl (fun acc c => acc * 10 + (c.toNat - 48)) 0

/-- Round-half-even of a rational to an integer; the rounding mode of
Python's `round`. -/
def roundHalfEven (q : ℚ) : ℤ :=
  if q - ⌊q⌋ < 1/2 then ⌊q⌋
  else if 1/2 < q - ⌊q⌋ then ⌊q⌋ + 1
  else if ⌊q⌋ % 2 = 0 then ⌊q⌋ else ⌊q⌋ + 1

/-- Model of Python `round(x, ndigits)` on exact rationals: round-half-even
to a multiple of `10 ^ (-ndigits)`. -/
def pyRound (q : ℚ) (ndigits : ℕ) : ℚ :=
  (roundHalfEven (q * (10 ^ ndigits : ℕ))) / ((10 ^ ndigits : ℕ) : ℚ)

/-- Decimal rendering of a natural number, most significant digit first;
structurally recursive on a fuel argument so that it evaluates inside the
kernel.  The zero-fuel branch is unreachable: a number has at most
`n + 1` decimal digits. -/
def natDecimalAux : ℕ → ℕ → List Char
  | 0, _ => []
  | fuel + 1, n =>
    if n < 10 then [Char.ofNat (48 + n)]
    else natDecimalAux fuel (n / 10) ++ [Char.ofNat (48 + n % 10)]

/-- Decimal rendering of a natural number, most significant digit first. -/
def natDecimal (n : ℕ) : List Char :=
  natDecimalAux (n + 1) n

/-- Three-digit zero-padded rendering of `n < 1000`, the fractional part of a
fixed three-decimal format. -/
def padThree (n : ℕ) : List Char :=
  (if n < 10 then ['0', '0'] else if n < 100 then ['0'] else []) ++ natDecimal n

/-- Model of the Python format `f"{value:.3f}"`: round-half-even to three
decimal places and render with exactly three decimals (a negative value
keeps its sign, as Python renders `-0.000` for a tiny negative float). -/
def formatFixed3 (q : ℚ) : String :=
  let scaled : ℤ := roundHalfEven (q * 1000)
  let m : ℕ := scaled.natAbs
  String.mk ((if q < 0 then ['-'] else []) ++ natDecimal (m / 1000) ++ '.' :: padThree (m % 1000))

/-- Model of `s.rstrip("0").rstrip(".")`: drop trailing `'0'` characters,
then trailing `'.'` characters. -/
def rstripZerosDot (s : String) : String :=
  let l := s.data.reverse.dropWhile (fun c => c = '0')
  let l := l.dropWhile (fun c => c = '.')
  String.mk l.reverse

/-- `_format_float` from `app/voice_data.py`: fixed three-decimal rendering,
trailing zeros and the decimal point stripped, empty result mapped to "0". -/
def _format_float (value : ℚ) : String :=
  let formatted := formatFixed3 value
  let formatted := if formatted.data.contains '.' then rstripZerosDot formatted else formatted
  if formatted = "" then "0" else formatted

/-- Model of Python `float(s)` on the decimal strings `_format_float`
produces: optional sign, integer part, optional fractional part. -/
def parsePyFloat (s : String) : ℚ :=
  let neg : Bool := s.data.head? = some '-'
  let l := if neg then s.data.tail else s.data
  let intPart := l.takeWhile (fun c => c ≠ '.')
  let fracPart := (l.dropWhile (fun c => c ≠ '.')).drop 1
  (if neg then (-1 : ℚ) else 1) *
    ((digitsToNat intPart : ℚ) + (digitsToNat fracPart : ℚ) / ((10 : ℚ) ^ fracPart.length))

/-- Truncation of a rational toward zero, as Python `int(float)`. -/
def truncQ (q : ℚ) : ℤ :=
  if 0 ≤ q then ⌊q⌋ else -⌊-q⌋

/-- Model of Python `int(s)` on a string: optional surrounding spaces,
optional sign, one or more digits; anything else raises `ValueError`. -/
def pyIntOfString (s : String) : Option Int :=
  let l := ((s.data.dropWhile (fun c => c = ' ')).reverse.dropWhile (fun c => c = ' ')).reverse
  let p : Int × List Char :=
    match l with
    | '-' :: rest => (-1, rest)
    | '+' :: rest => (1, rest)
    | l => (1, l)
  if p.2 ≠ [] ∧ p.2.all (fun c => c.isDigit) then some (p.1 * (digitsToNat p.2 : Int))
  else none

/-- Model of Python `int(x)` applied to a JSON value: succeeds on `bool`
(a Python `bool` is an `int`), `int`, `float` and digit strings; raises
(`TypeError` / `ValueError`) on everything else. -/
def pyInt : Json → Option Int
  | Json.bool b => some (if b then 1 else 0)
  | Json.int n => some n
  | Json.float q => some (truncQ q)
  | Json.str s => pyIntOfString s
  | _ => none

/-- `isinstance(x, (int, float))` in Python: `int`, `float`, and `bool`
(which is a subclass of `int`). -/
def isNumberLike : Json → Bool
  | Json.int _ => true
  | Json.float _ => true
  | Json.bool _ => true
  | _ => false

/-- Python `float(x)` on a value that passed `isNumberLike`. -/
def pyFloat : Json → ℚ
  | Json.int n => (n : ℚ)
  | Json.float q => q
  | Json.bool b => if b then 1 else 0
  | _ => 0

/-- `NumericChoices` from `app/voice_data.py`: validated choices for one
numeric inference parameter. `values` is a Python dict in iteration order. -/
structure NumericChoices where
  values : List (String × ℚ)
  default_label : String
deriving DecidableEq

/-- `VoiceMetadata` from `app/voice_data.py`. -/
structure VoiceMetadata where
  name : String
  speaker_choices : List (String × Int)
  default_speaker : Option String
  numeric_parameters : List (String × NumericChoices)
deriving DecidableEq

/-- `_generate_numeric_variations` from `app/voice_data.py`. -/
def _generate_numeric_variations (default : ℚ) : List ℚ :=
  let factors : List ℚ := [0.75, 0.9, 1.0, 1.1, 1.25]
  factors.map (fun factor => max 0 (pyRound (default * factor) 5))

/-- The sorted, deduplicated, formatted ladder labels of
`_extract_numeric_choices`: `sorted({round(option, 5) for option in values})`
formatted by `_format_float`.  Python's set deduplicates and `sorted` orders
ascending. -/
def ladderLabels (default_value : ℚ) : List String :=
  (List.insertionSort (fun a b => a ≤ b)
      ((( _generate_numeric_variations default_value).map (fun option => pyRound option 5)).dedup)).map
    _format_float

/-- The final `ordered_value_map` of `_extract_numeric_choices`: the dict
comprehension `{label: value_map[label] for label in labels}` over a pair of
the value map `p.1` and the label sequence `p.2`.  `value_map[label]` cannot
miss (every label of the sequence is a key), so the lookup is total with an
unreachable fallback of 0. -/
def orderedValueMap (p : List (String × ℚ) × List String) : List (String × ℚ) :=
  pyDictOfList (p.2.map (fun label => (label, (dictLookup p.1 label).getD 0)))

/-- Body of `_extract_numeric_choices` (lines 88-105 of `app/voice_data.py`)
after the `isinstance` checks, applied to the exact value of the configured
default. -/
def buildNumericChoices (default_value : ℚ) : NumericChoices :=
  let labels := ladderLabels default_value
  let value_map := pyDictOfList (labels.map (fun label => (label, parsePyFloat label)))
  let default_label := _format_float default_value
  let p : List (String × ℚ) × List String :=
    if value_map.any (fun kv => kv.1 = default_label) then (value_map, labels)
    else (pyDictInsert value_map default_label default_value, labels ++ [default_label])
  { values := orderedValueMap p, default_label := default_label }

/-- `_extract_numeric_choices` from `app/voice_data.py`. -/
def _extract_numeric_choices (config : PyDict) (parameter_name : String) : Option NumericChoices :=
  match jsonGet config "inference" with
  | some (Json.obj inference) =>
    match jsonGet inference parameter_name with
    | some default_value =>
      if isNumberLike default_value then some (buildNumericChoices (pyFloat default_value))
      else none
    | none => none
  | _ => none

/-- The `num_speakers` fallback of `_extract_speaker_choices` (lines 71-77 of
`app/voice_data.py`).  `isinstance(num_speakers, int)` also accepts a Python
`bool`, but a bool is at most 1 so it never passes the `> 1` test; both cases
land in the final return. -/
def numSpeakersFallback (config : PyDict) : List (String × Int) × Option String :=
  match jsonGet config "num_speakers" with
  | some (Json.int num_speakers) =>
    if 1 < num_speakers then
      ((List.range num_speakers.toNat).map
          (fun idx : ℕ => ("Speaker " ++ toString idx, (idx : Int))),
        some "Speaker 0")
    else ([], none)
  | _ => ([], none)

/-- `_extract_speaker_choices` from `app/voice_data.py`.  The generator
`(str(name), int(idx)) for name, idx in config["speaker_id_map"].items()`
raises when `int(idx)` fails, hence the `Except`; `sorted(..., key=item[1])`
is the stable sort by index. -/
def _extract_speaker_choices (config : PyDict) :
    Except String (List (String × Int) × Option String) :=
  match jsonGet config "speaker_id_map" with
  | some (Json.obj speaker_id_map) =>
    if speaker_id_map.length ≠ 0 then
      match speaker_id_map.mapM (fun kv => (pyInt kv.2).map (fun n => (kv.1, n))) with
      | some items =>
        let sortedItems := List.insertionSort (fun a b => a.2 ≤ b.2) items
        let speaker_choices := pyDictOfList sortedItems
        match speaker_choices.head? with
        | some kv => Except.ok (speaker_choices, some kv.1)
        | none => Except.error "StopIteration"
      | none => Except.error "invalid speaker index"
    else Except.ok (numSpeakersFallback config)
  | _ => Except.ok (numSpeakersFallback config)

/-- `parse_voice_config` from `app/voice_data.py`. -/
def parse_voice_config (voice_name : String) (config : PyDict) : Except String VoiceMetadata :=
  match _extract_speaker_choices config with
  | Except.error e => Except.error e
  | Except.ok sc =>
    let numeric_parameters :=
      ["length_scale", "noise_scale", "noise_w"].foldl
        (fun acc parameter_name =>
          match _extract_numeric_choices config parameter_name with
          | some numeric_choice => acc ++ [(parameter_name, numeric_choice)]
          | none => acc)
        []
    Except.ok
      { name := voice_name
        speaker_choices := sc.1
        default_speaker := sc.2
        numeric_parameters := numeric_parameters }

/-- Major Unicode general-category classes, the granularity at which
`sanitize_text` inspects `unicodedata.category`: Letter, Number,
Punctuation, Separator, Other (control/format/unassigned), Symbol, Mark. -/
inductive UCat where
  | L | N | P | Z | C | S | M
deriving DecidableEq

/-- Model of the major class of `unicodedata.category` (the Unicode
character database is Python-stdlib data, external to the repository).
Exact on Basic Latin, Latin-1, general punctuation, Hangul jamo and
syllables, and the characters appearing in this repository's data and
tests; other blocks are classified coarsely at block granularity.
`sanitize_text` only ever inspects the major class. -/
def ucat (c : Char) : UCat :=
  let n := c.toNat
  if n < 0x20 then .C
  else if n = 0x20 then .Z
  else if n ∈ [0x24, 0x2B] then .S                -- dollar, plus
  else if 0x21 ≤ n ∧ n ≤ 0x2F then .P             -- ! " # % & ' ( ) * , - . /
  else if 0x30 ≤ n ∧ n ≤ 0x39 then .N             -- digits
  else if n ∈ [0x3C, 0x3D, 0x3E] then .S          -- < = >
  else if 0x3A ≤ n ∧ n ≤ 0x40 then .P             -- : ; ? @
  else if 0x41 ≤ n ∧ n ≤ 0x5A then .L
  else if n ∈ [0x5E, 0x60] then .S                -- circumflex, backtick
  else if 0x5B ≤ n ∧ n ≤ 0x5F then .P             -- square brackets, backslash, underscore
  else if 0x61 ≤ n ∧ n ≤ 0x7A then .L
  else if n ∈ [0x7C, 0x7E] then .S                -- vertical bar, tilde
  else if n ∈ [0x7B, 0x7D] then .P                -- curly brackets
  else if n ≤ 0x9F then .C                        -- DEL and C1 controls
  else if n = 0xA0 then .Z                        -- no-break space
  else if n ∈ [0xA1, 0xA7, 0xAB, 0xB6, 0xB7, 0xBB, 0xBF] then .P
  else if n ∈ [0xAA, 0xB5, 0xBA] then .L
  else if n ∈ [0xB2, 0xB3, 0xB9, 0xBC, 0xBD, 0xBE] then .N
  else if n = 0xAD then .C                        -- soft hyphen (Cf)
  else if n ≤ 0xBF then .S
  else if n ∈ [0xD7, 0xF7] then .S                -- multiplication, division signs
  else if n ≤ 0x2AF then .L                       -- Latin-1 letters, Latin Extended, IPA
  else if 0x300 ≤ n ∧ n ≤ 0x36F then .M           -- combining diacritical marks
  else if 0x1100 ≤ n ∧ n ≤ 0x11FF then .L         -- Hangul conjoining jamo (Lo)
  else if n ≤ 0x1FFF then .L                      -- Greek, Cyrillic, ... (coarse)
  else if 0x2000 ≤ n ∧ n ≤ 0x200A then .Z         -- typographic spaces
  else if n ∈ [0x2028, 0x2029] then .Z            -- line and paragraph separators
  else if n ∈ [0x202F, 0x205F] then .Z            -- narrow no-break, medium math space
  else if (0x200B ≤ n ∧ n ≤ 0x200F) ∨ (0x202A ≤ n ∧ n ≤ 0x202E) ∨
      (0x2060 ≤ n ∧ n ≤ 0x206F) then .C           -- zero-width and bidi controls (Cf)
  else if n ≤ 0x205E then .P                      -- general punctuation: dashes, ellipsis, ...
  else if 0x2070 ≤ n ∧ n ≤ 0x209F then .N         -- superscripts and subscripts (coarse)
  else if 0x20A0 ≤ n ∧ n ≤ 0x20CF then .S         -- currency symbols
  else if 0x20D0 ≤ n ∧ n ≤ 0x20FF then .M         -- combining marks for symbols
  else if n ≤ 0x2BFF then .S                      -- letterlike, arrows, math, misc symbols
  else if n ≤ 0x2DFF then .L                      -- Glagolitic, Coptic, ... (coarse)
  else if n ≤ 0x2E7F then .P                      -- supplemental punctuation
  else if n < 0x3000 then .S                      -- CJK radicals (coarse)
  else if n = 0x3000 then .Z                      -- ideographic space
  else if n ≤ 0x303F then .P                      -- CJK punctuation (coarse)
  else if n ≤ 0xD7A3 then .L                      -- kana, CJK, Hangul syllables (coarse)
  else if n ≤ 0xF8FF then .C                      -- surrogate range, private use
  else if n ≤ 0xFDFF then .L                      -- compatibility ideographs and forms (coarse)
  else if n ≤ 0xFE0F then .M                      -- variation selectors
  else if n ≤ 0xFFFF then .P                      -- remaining BMP forms (coarse)
  else if 0x1F000 ≤ n ∧ n ≤ 0x1FBFF then .S       -- emoji and symbol planes
  else .L                                          -- supplementary planes (coarse)

/-- The characters Python's `str`-mode regex `\s` and `str.strip()` treat as
whitespace: Unicode separators plus the whitespace control characters. -/
def isPythonSpace (c : Char) : Bool :=
  ucat c = .Z ∨ c ∈ ['\t', '\n', '\x0B', '\x0C', '\r', '\x1C', '\x1D', '\x1E', '\x1F', '\u0085']

/-- `ALLOWED_PUNCTUATION` from `coqui_xtts_app/app/config.py`. -/
def ALLOWED_PUNCTUATION : String := ".,;:!?'\"()[]-–—%"

/-- `MAX_TEXT_LENGTH` from `coqui_xtts_app/app/config.py`. -/
def MAX_TEXT_LENGTH : Int := 8000

/-- `ensure_text_within_limit` from `coqui_xtts_app/app/text_utils.py`.
`max_length = limit or config.MAX_TEXT_LENGTH` falls back to the default
when `limit` is `None` or `0` (both falsy in Python). -/
def ensure_text_within_limit (text : String) (limit : Option Int) : Except String Unit :=
  let max_length : Int :=
    match limit with
    | none => MAX_TEXT_LENGTH
    | some l => if l = 0 then MAX_TEXT_LENGTH else l
  if (text.length : Int) > max_length then
    Except.error "O texto é muito grande para uma única síntese. Considere dividir o conteúdo em partes menores."
  else
    Except.ok ()

/-- Named character references recognised by this model of `html.unescape`
(the stdlib table is far larger; it is external to the repository). -/
def htmlEntities : List (String × String) :=
  [("amp", "&"), ("lt", "<"), ("gt", ">"), ("quot", "\""), ("apos", "'"),
   ("nbsp", " "), ("hellip", "…"), ("mdash", "—"), ("ndash", "–"),
   ("eacute", "é"), ("aacute", "á"), ("atilde", "ã"), ("ccedil", "ç")]

/-- Try to read a character reference right after an ampersand: either
`#` digits `;` (a numeric reference) or a known name followed by `;`.
Returns the replacement text and the number of characters consumed. -/
def matchEntity (l : List Char) : Option (List Char × ℕ) :=
  match l with
  | '#' :: rest =>
    let ds := rest.takeWhile (fun c => c.isDigit)
    if ds ≠ [] ∧ ((rest.drop ds.length).head? = some ';') then
      some ([Char.ofNat (digitsToNat ds)], ds.length + 2)
    else none
  | _ =>
    let nm := l.takeWhile (fun c => c.isAlpha)
    if (l.drop nm.length).head? = some ';' then
      match htmlEntities.lookup (String.mk nm) with
      | some repl => some (repl.data, nm.length + 1)
      | none => none
    else none

/-- Model of `html.unescape` (Python stdlib, external to the repository):
rewrites character references introduced by an ampersand and leaves all
other text unchanged.  As in the stdlib, only substrings beginning with an
ampersand are ever rewritten. -/
def htmlUnescapeAux : ℕ → List Char → List Char
  | 0, l => l
  | _ + 1, [] => []
  | fuel + 1, c :: rest =>
    if c = '&' then
      match matchEntity rest with
      | some (repl, consumed) => repl ++ htmlUnescapeAux fuel (rest.drop consumed)
      | none => c :: htmlUnescapeAux fuel rest
    else c :: htmlUnescapeAux fuel rest

/-- Entry point of the `html.unescape` model.  The fuel strictly exceeds the
input length and every step consumes at least one character, so the
zero-fuel branch (which returns the text unchanged) is never reached. -/
def htmlUnescapeList (l : List Char) : List Char :=
  htmlUnescapeAux (l.length + 1) l

/-- Substitution of `_HTML_TAG_PATTERN = <[^>]+>` by a single space: at a
`<`, the greedy `[^>]+` runs to the first later `>` and needs at least one
character in between. -/
def htmlTagSubAux : ℕ → List Char → List Char
  | 0, l => l
  | _ + 1, [] => []
  | fuel + 1, c :: rest =>
    if c = '<' then
      let inner := rest.takeWhile (fun d => d ≠ '>')
      if inner ≠ [] ∧ ((rest.drop inner.length).head? = some '>') then
        ' ' :: htmlTagSubAux fuel (rest.drop (inner.length + 1))
      else c :: htmlTagSubAux fuel rest
    else c :: htmlTagSubAux fuel rest

/-- Entry point of the tag-stripping substitution.  The fuel strictly
exceeds the input length and every step consumes at least one character, so
the zero-fuel branch (which returns the text unchanged) is never reached. -/
def htmlTagSub (l : List Char) : List Char :=
  htmlTagSubAux (l.length + 1) l

/-- Hangul leading-consonant jamo (the `L` part of a syllable). -/
def isJamoL (c : Char) : Bool := 0x1100 ≤ c.toNat ∧ c.toNat ≤ 0x1112

/-- Hangul vowel jamo (the `V` part of a syllable). -/
def isJamoV (c : Char) : Bool := 0x1161 ≤ c.toNat ∧ c.toNat ≤ 0x1175

/-- Hangul trailing-consonant jamo (the `T` part of a syllable). -/
def isJamoT (c : Char) : Bool := 0x11A8 ≤ c.toNat ∧ c.toNat ≤ 0x11C2

/-- A precomposed Hangul `LV` syllable (no trailing consonant yet). -/
def isLVSyllable (c : Char) : Bool :=
  0xAC00 ≤ c.toNat ∧ c.toNat ≤ 0xD7A3 ∧ (c.toNat - 0xAC00) % 28 = 0

/-- The algorithmic Hangul canonical composition of the Unicode standard:
`L + V` composes to an `LV` syllable, `LV + T` to an `LVT` syllable. -/
def composeHangul (a b : Char) : Option Char :=
  if isJamoL a ∧ isJamoV b then
    some (Char.ofNat (0xAC00 + ((a.toNat - 0x1100) * 21 + (b.toNat - 0x1161)) * 28))
  else if isLVSyllable a ∧ isJamoT b then
    some (Char.ofNat (a.toNat + (b.toNat - 0x11A7)))
  else none

/-- Model of `unicodedata.normalize("NFC", ·)` (Python stdlib; the Unicode
canonical-composition tables are external to the repository).  The
algorithmic part of canonical composition — Hangul jamo composition — is
modelled; table-driven composition pairs all involve a combining mark,
which the sanitizer's character filter drops, and input text is otherwise
taken to be already canonically composed. -/
def nfcAux (a : Char) : List Char → List Char
  | [] => [a]
  | b :: rest =>
    match composeHangul a b with
    | some c => nfcAux c rest
    | none => a :: nfcAux b rest

/-- Entry point of the normalization model: compose each pending character
with its successor where Hangul composition applies. -/
def unicodeNormalizeNFC : List Char → List Char
  | [] => []
  | a :: rest => nfcAux a rest

/-- The per-character classification step of the `sanitize_text` loop:
the characters appended to `safe_chars` for one input character. -/
def sanitizeChar (char : Char) : List Char :=
  if ucat char = .C then []                        -- control characters removed entirely
  else if ucat char = .L ∨ ucat char = .N then [char]
  else if char ∈ ALLOWED_PUNCTUATION.data then [char]
  else if ucat char = .P ∧ char = '…' then ['.', '.', '.']
  else if ucat char = .Z then [' ']
  else []                                          -- any other symbols such as emojis

/-- What a finished run of `k` pending periods contributes to the output of
the multi-dot substitution: a run of four or more becomes exactly three. -/
def emitDots (k : ℕ) : List Char :=
  List.replicate (if 4 ≤ k then 3 else k) '.'

/-- Worker of the multi-dot substitution: `pending` counts the periods of
the current run, emitted via `emitDots` when the run ends. -/
def multiDotsAux (pending : ℕ) : List Char → List Char
  | [] => emitDots pending
  | c :: rest =>
    if c = '.' then multiDotsAux (pending + 1) rest
    else emitDots pending ++ c :: multiDotsAux 0 rest

/-- Substitution of `_MULTI_DOTS_PATTERN = \.{4,}` by `"..."`: each maximal
run of four or more periods becomes exactly three. -/
def multiDotsSub (l : List Char) : List Char :=
  multiDotsAux 0 l

/-- `str.replace("…", "...")`, character by character (the pattern is a
single character). -/
def replaceEllipsisList : List Char → List Char
  | [] => []
  | c :: rest => (if c = '…' then ['.', '.', '.'] else [c]) ++ replaceEllipsisList rest

/-- Worker of the whitespace substitution: `prevSpace` records whether the
previous character belonged to a whitespace run, in which case further
whitespace of the same run emits nothing. -/
def whitespaceSubAux (prevSpace : Bool) : List Char → List Char
  | [] => []
  | c :: rest =>
    if isPythonSpace c then
      (if prevSpace then [] else [' ']) ++ whitespaceSubAux true rest
    else c :: whitespaceSubAux false rest

/-- Substitution of `_WHITESPACE_PATTERN = \s+` by a single space: each
maximal run of whitespace becomes one space. -/
def whitespaceSub (l : List Char) : List Char :=
  whitespaceSubAux false l

/-- Python `str.strip()`: removes leading and trailing whitespace. -/
def pyStrip (l : List Char) : List Char :=
  ((l.dropWhile isPythonSpace).reverse.dropWhile isPythonSpace).reverse

/-- `sanitize_text` from `coqui_xtts_app/app/text_utils.py`. -/
def sanitize_text (text : String) : String :=
  if text = "" then ""
  else
    let decoded_text := htmlUnescapeList text.data
    let without_tags := htmlTagSub decoded_text
    let normalized := unicodeNormalizeNFC without_tags
    let safe_chars := normalized.flatMap sanitizeChar
    let cleaned := multiDotsSub safe_chars
    let cleaned := replaceEllipsisList cleaned
    let cleaned := whitespaceSub cleaned
    String.mk (pyStrip cleaned)

/-! ### Dictionary lemmas -/

theorem pyDictInsert_ne_nil (d : List (String × α)) (k : String) (v : α) :
    pyDictInsert d k v ≠ [] := by
  unfold pyDictInsert
  split
  · rename_i h
    cases d with
    | nil => simp at h
    | cons x rest => simp
  · simp

theorem pyDictInsert_mem {d : List (String × α)} {k : String} {v : α} {p : String × α}
    (h : p ∈ pyDictInsert d k v) : p ∈ d ∨ p = (k, v) := by
  unfold pyDictInsert at h
  split at h
  · rcases List.mem_map.1 h with ⟨q, hq, he⟩
    split at he
    · right; exact he.symm
    · left; exact he ▸ hq
  · rcases List.mem_append.1 h with h | h
    · left; exact h
    · right; simpa using h

theorem pyDictInsert_of_key_not_mem {d : List (String × α)} {k : String} (v : α)
    (h : d.any (fun kv => kv.1 = k) = false) : pyDictInsert d k v = d ++ [(k, v)] := by
  unfold pyDictInsert
  simp [h]

theorem dictLookup_map_replace {k k' : String} (v : α) (d : List (String × α)) (h : k' ≠ k) :
    dictLookup (d.map (fun kv => if kv.1 = k then (k, v) else kv)) k' = dictLookup d k' := by
  induction d with
  | nil => rfl
  | cons q rest ih =>
    by_cases hq : q.1 = k
    · simp only [List.map_cons, if_pos hq, dictLookup]
      rw [if_neg (fun he => h he.symm), if_neg (fun he : q.1 = k' => h (hq ▸ he ▸ rfl))]
      exact ih
    · simp only [List.map_cons, if_neg hq, dictLookup]
      split
      · rfl
      · exact ih

theorem dictLookup_map_replace_self {k : String} (v : α) (d : List (String × α))
    (hany : d.any (fun kv => kv.1 = k) = true) :
    dictLookup (d.map (fun kv => if kv.1 = k then (k, v) else kv)) k = some v := by
  induction d with
  | nil => simp at hany
  | cons q rest ih =>
    by_cases hq : q.1 = k
    · simp [List.map_cons, if_pos hq, dictLookup]
    · simp only [List.map_cons, if_neg hq, dictLookup, if_neg hq]
      simp only [List.any_cons, hq] at hany
      exact ih (by simpa using hany)

theorem dictLookup_append_one (d : List (String × α)) (k k' : String) (v : α) :
    dictLookup (d ++ [(k, v)]) k' =
      (dictLookup d k').orElse (fun _ => if k = k' then some v else none) := by
  induction d with
  | nil => simp [dictLookup]
  | cons q rest ih =>
    simp only [List.cons_append, dictLookup]
    split
    · rfl
    · exact ih

theorem dictLookup_eq_none_of_no_key (d : List (String × α)) (k : String)
    (hany : d.any (fun kv => kv.1 = k) = false) : dictLookup d k = none := by
  induction d with
  | nil => rfl
  | cons q rest ih =>
    simp only [List.any_cons, Bool.or_eq_false_iff, decide_eq_false_iff_not] at hany
    rw [dictLookup, if_neg hany.1]
    exact ih (by simp [hany.2])

theorem dictLookup_pyDictInsert_self (d : List (String × α)) (k : String) (v : α) :
    dictLookup (pyDictInsert d k v) k = some v := by
  unfold pyDictInsert
  split
  · rename_i hany
    exact dictLookup_map_replace_self v d hany
  · rename_i hany
    rw [dictLookup_append_one,
      dictLookup_eq_none_of_no_key d k (by simp only [Bool.not_eq_true] at hany; exact hany)]
    simp [Option.orElse]

theorem dictLookup_pyDictInsert_ne (d : List (String × α)) {k k' : String} (v : α)
    (h : k' ≠ k) : dictLookup (pyDictInsert d k v) k' = dictLookup d k' := by
  unfold pyDictInsert
  split
  · exact dictLookup_map_replace v d h
  · rw [dictLookup_append_one, if_neg (fun he => h he.symm)]
    cases dictLookup d k' <;> simp [Option.orElse]

theorem dictLookup_mem {d : List (String × α)} {k : String} {v : α}
    (h : dictLookup d k = some v) : (k, v) ∈ d := by
  induction d with
  | nil => simp [dictLookup] at h
  | cons q rest ih =>
    rw [dictLookup] at h
    split at h
    · rename_i hq
      cases h
      exact hq ▸ List.mem_cons_self _ _
    · exact List.mem_cons_of_mem _ (ih h)

theorem any_key_eq_isSome_dictLookup (d : List (String × α)) (k : String) :
    d.any (fun kv => kv.1 = k) = (dictLookup d k).isSome := by
  induction d with
  | nil => rfl
  | cons q rest ih =>
    rw [List.any_cons, dictLookup]
    by_cases hq : q.1 = k
    · simp [hq]
    · simp only [if_neg hq, decide_eq_false hq, Bool.false_or]
      exact ih

theorem pyDictOfList_forall (P : String × α → Prop) (l : List (String × α))
    (hl : ∀ p ∈ l, P p) : ∀ p ∈ pyDictOfList l, P p := by
  suffices h : ∀ (l : List (String × α)) (acc : List (String × α)),
      (∀ p ∈ acc, P p) → (∀ p ∈ l, P p) →
      ∀ p ∈ l.foldl (fun a kv => pyDictInsert a kv.1 kv.2) acc, P p by
    exact h l [] (by simp) hl
  intro l
  induction l with
  | nil => intro acc ha _ p hp; exact ha p hp
  | cons x rest ih =>
    intro acc ha hl p hp
    rw [List.foldl_cons] at hp
    refine ih (pyDictInsert acc x.1 x.2) ?_ (fun q hq => hl q (List.mem_cons_of_mem _ hq)) p hp
    intro q hq
    rcases pyDictInsert_mem hq with h | h
    · exact ha q h
    · exact h ▸ hl x (List.mem_cons_self _ _)

theorem dictLookup_pyDictOfList_keyfun (g : String → α) (xs : List String) (k : String) :
    dictLookup (pyDictOfList (xs.map (fun t => (t, g t)))) k =
      if k ∈ xs then some (g k) else none := by
  suffices h : ∀ (xs : List String) (acc : List (String × α)) (k : String),
      dictLookup ((xs.map (fun t => (t, g t))).foldl (fun a kv => pyDictInsert a kv.1 kv.2) acc) k
        = if k ∈ xs then some (g k) else dictLookup acc k by
    rw [pyDictOfList, h xs [] k]
    rfl
  intro xs
  induction xs with
  | nil => intro acc k; simp
  | cons x rest ih =>
    intro acc k
    rw [List.map_cons, List.foldl_cons, ih]
    by_cases hr : k ∈ rest
    · simp [hr]
    · by_cases hx : k = x
      · subst hx
        simp [hr, dictLookup_pyDictInsert_self]
      · simp only [if_neg hr, List.mem_cons, hx, false_or, if_neg hr]
        exact dictLookup_pyDictInsert_ne acc _ hx

theorem pyDictOfList_nodup (l : List (String × α)) (hnd : (l.map Prod.fst).Nodup) :
    pyDictOfList l = l := by
  suffices h : ∀ (l acc : List (String × α)), ((acc ++ l).map Prod.fst).Nodup →
      l.foldl (fun a kv => pyDictInsert a kv.1 kv.2) acc = acc ++ l by
    simpa using h l [] (by simpa using hnd)
  intro l
  induction l with
  | nil => intro acc _; simp
  | cons x rest ih =>
    intro acc hnd
    rw [List.foldl_cons]
    have hx : acc.any (fun kv => kv.1 = x.1) = false := by
      rw [List.any_eq_false]
      intro kv hkv
      simp only [decide_eq_true_eq]
      intro he
      rw [List.map_append, List.nodup_append] at hnd
      exact hnd.2.2 (he ▸ List.mem_map_of_mem Prod.fst hkv) (by simp)
    rw [pyDictInsert_of_key_not_mem x.2 hx]
    have : (((acc ++ [x]) ++ rest).map Prod.fst).Nodup := by
      simpa using hnd
    have hr := ih (acc ++ [(x.1, x.2)]) (by simpa using this)
    rw [hr]
    simp

/-! ### Numeric lemmas -/

theorem roundHalfEven_nonneg {q : ℚ} (h : 0 ≤ q) : 0 ≤ roundHalfEven q := by
  have hf : (0 : ℤ) ≤ ⌊q⌋ := Int.floor_nonneg.mpr h
  unfold roundHalfEven
  split
  · exact hf
  · split
    · omega
    · split <;> omega

theorem pyRound_nonneg {q : ℚ} (h : 0 ≤ q) (n : ℕ) : 0 ≤ pyRound q n := by
  unfold pyRound
  have h1 : (0 : ℚ) ≤ (roundHalfEven (q * (10 ^ n : ℕ)) : ℚ) := by
    exact_mod_cast roundHalfEven_nonneg (by positivity)
  positivity

theorem _generate_numeric_variations_nonneg (d : ℚ) :
    ∀ v ∈ _generate_numeric_variations d, 0 ≤ v := by
  intro v hv
  unfold _generate_numeric_variations at hv
  rcases List.mem_map.1 hv with ⟨f, _, rfl⟩
  exact le_max_left 0 _

theorem natDecimalAux_digits {fuel n : ℕ} {c : Char} (h : c ∈ natDecimalAux fuel n) :
    48 ≤ c.toNat ∧ c.toNat ≤ 57 := by
  induction fuel generalizing n with
  | zero => simp [natDecimalAux] at h
  | succ fuel ih =>
    rw [natDecimalAux] at h
    split at h
    · rename_i hn
      simp only [List.mem_singleton] at h
      subst h
      interval_cases n <;> decide
    · rcases List.mem_append.1 h with h | h
      · exact ih h
      · simp only [List.mem_singleton] at h
        subst h
        have hm : n % 10 < 10 := Nat.mod_lt _ (by omega)
        set m := n % 10 with hmdef
        interval_cases m <;> decide

theorem natDecimal_ne_nil (n : ℕ) : natDecimal n ≠ [] := by
  rw [natDecimal, natDecimalAux]
  split
  · simp
  · simp

theorem parsePyFloat_nonneg {s : String} (h : ∀ c, s.data.head? = some c → c ≠ '-') :
    0 ≤ parsePyFloat s := by
  unfold parsePyFloat
  have hneg : (s.data.head? = some '-' : Bool) = false := by
    cases hh : s.data.head? with
    | none => simp
    | some c => simp [h c hh]
  rw [hneg]
  simp only [Bool.false_eq_true, if_false, one_mul]
  positivity

theorem head?_of_front {l₁ l₂ : List Char} (h : l₁ <+: l₂) (hne : l₁ ≠ []) :
    l₂.head? = l₁.head? := by
  rcases h with ⟨t, rfl⟩
  cases l₁ with
  | nil => exact absurd rfl hne
  | cons c r => rfl

theorem rstripZerosDot_front (s : String) : (rstripZerosDot s).data <+: s.data := by
  unfold rstripZerosDot
  have h1 : ((s.data.reverse.dropWhile (fun c => c = '0')).dropWhile (fun c => c = '.')) <:+
      s.data.reverse :=
    (List.dropWhile_suffix _).trans (List.dropWhile_suffix _)
  exact List.reverse_suffix.1 (by simpa using h1)

theorem formatFixed3_head_of_nonneg {q : ℚ} (h : 0 ≤ q) {c : Char}
    (hc : (formatFixed3 q).data.head? = some c) : 48 ≤ c.toNat ∧ c.toNat ≤ 57 := by
  unfold formatFixed3 at hc
  rw [if_neg (not_lt.2 h)] at hc
  simp only [List.nil_append] at hc
  rcases hd : natDecimal ((roundHalfEven (q * 1000)).natAbs / 1000) with _ | ⟨d, rest⟩
  · exact absurd hd (natDecimal_ne_nil _)
  · rw [hd] at hc
    simp only [List.cons_append, List.head?_cons, Option.some_inj] at hc
    subst hc
    exact natDecimalAux_digits (hd ▸ List.mem_cons_self d rest)

theorem _format_float_head_of_nonneg {q : ℚ} (h : 0 ≤ q) :
    ∀ c, (_format_float q).data.head? = some c → 48 ≤ c.toNat ∧ c.toNat ≤ 57 := by
  intro c hc
  simp only [_format_float] at hc
  split at hc
  · -- the rendering contains a period and is stripped
    split at hc
    · -- the stripped string was empty: the result is "0"
      have hc0 : some '0' = some c := hc
      cases hc0
      decide
    · rename_i hne
      have hpre := rstripZerosDot_front (formatFixed3 q)
      have hnn : (rstripZerosDot (formatFixed3 q)).data ≠ [] := by
        intro hz
        apply hne
        apply String.ext
        simpa using hz
      have hh := head?_of_front hpre hnn
      exact formatFixed3_head_of_nonneg h (hh ▸ hc)
  · split at hc
    · have hc0 : some '0' = some c := hc
      cases hc0
      decide
    · exact formatFixed3_head_of_nonneg h hc

theorem ladderLabels_nonneg_parse {d : ℚ} {la : String} (h : la ∈ ladderLabels d) :
    0 ≤ parsePyFloat la := by
  unfold ladderLabels at h
  rcases List.mem_map.1 h with ⟨v, hv, rfl⟩
  have hv' : v ∈ (((_generate_numeric_variations d).map (fun option => pyRound option 5))).dedup :=
    ((List.perm_insertionSort _ _).mem_iff).1 hv
  rw [List.mem_dedup] at hv'
  rcases List.mem_map.1 hv' with ⟨w, hw, rfl⟩
  have hwn : 0 ≤ w := _generate_numeric_variations_nonneg d w hw
  have hvn : 0 ≤ pyRound w 5 := pyRound_nonneg hwn 5
  apply parsePyFloat_nonneg
  intro c hc hcm
  have := _format_float_head_of_nonneg hvn c hc
  rw [hcm] at this
  simp at this


theorem orderedValueMap_forall (p : List (String × ℚ) × List String) (P : ℚ → Prop)
    (h0 : P 0) (hv : ∀ q ∈ p.1, P q.2) : ∀ r ∈ orderedValueMap p, P r.2 := by
  intro r hr
  refine pyDictOfList_forall (fun r => P r.2) _ ?_ r hr
  intro s hs
  rcases List.mem_map.1 hs with ⟨la, _, rfl⟩
  simp only []
  rcases ho : dictLookup p.1 la with _ | v
  · simpa [ho] using h0
  · have := hv _ (dictLookup_mem ho)
    simpa [ho] using this

theorem dictLookup_orderedValueMap (p : List (String × ℚ) × List String) (k : String) :
    dictLookup (orderedValueMap p) k =
      if k ∈ p.2 then some ((dictLookup p.1 k).getD 0) else none :=
  dictLookup_pyDictOfList_keyfun (fun label => (dictLookup p.1 label).getD 0) p.2 k

/-- Case analysis of the conditional default insertion of
`_extract_numeric_choices`, stated over generic components. -/
theorem buildChoicesPair_values_cases (d : ℚ) (labels : List String)
    (vm : List (String × ℚ)) (dl : String) (hvm : ∀ q ∈ vm, 0 ≤ q.2) :
    ∀ p ∈ orderedValueMap (if vm.any (fun kv => kv.1 = dl) then (vm, labels)
        else (pyDictInsert vm dl d, labels ++ [dl])), 0 ≤ p.2 ∨ p.2 = d := by
  intro p hp
  revert hp
  split
  · intro hp
    exact Or.inl (orderedValueMap_forall _ (fun v => 0 ≤ v) le_rfl hvm p hp)
  · intro hp
    refine orderedValueMap_forall _ (fun v => 0 ≤ v ∨ v = d) (Or.inl le_rfl) ?_ p hp
    intro q hq
    rcases pyDictInsert_mem hq with h | h
    · exact Or.inl (hvm q h)
    · exact Or.inr (by rw [h])

/-- Every value stored by `buildNumericChoices d` is either non-negative (a
parsed ladder label) or the exact default `d` itself (possible only through
the appended `default_label` entry). -/
theorem buildNumericChoices_values_cases (d : ℚ) :
    ∀ p ∈ (buildNumericChoices d).values, 0 ≤ p.2 ∨ p.2 = d := by
  have hvm : ∀ q ∈ pyDictOfList (((ladderLabels d)).map (fun label => (label, parsePyFloat label))),
      (0 : ℚ) ≤ q.2 := by
    intro q hq
    refine pyDictOfList_forall (fun q => 0 ≤ q.2) _ ?_ q hq
    intro r hr
    rcases List.mem_map.1 hr with ⟨la, hla, rfl⟩
    exact ladderLabels_nonneg_parse hla
  simp only [buildNumericChoices]
  exact buildChoicesPair_values_cases d (ladderLabels d) _ (_format_float d) hvm

/-- The `default_label` entry of the final map: when the label already
appears among the ladder labels it keeps the parsed-back label value,
otherwise the exact default is inserted.  Stated over generic components. -/
theorem buildChoicesPair_lookup_default (d : ℚ) (labels : List String) (dl : String)
    (vm : List (String × ℚ))
    (hvm : vm = pyDictOfList (labels.map (fun label => (label, parsePyFloat label)))) :
    dictLookup (orderedValueMap (if vm.any (fun kv => kv.1 = dl) then (vm, labels)
        else (pyDictInsert vm dl d, labels ++ [dl]))) dl =
      some (if dl ∈ labels then parsePyFloat dl else d) := by
  have hany : vm.any (fun kv => kv.1 = dl) = decide (dl ∈ labels) := by
    rw [hvm, any_key_eq_isSome_dictLookup, dictLookup_pyDictOfList_keyfun]
    by_cases h : dl ∈ labels <;> simp [h]
  by_cases h : dl ∈ labels
  · rw [if_pos (by rw [hany]; simpa using h), dictLookup_orderedValueMap]
    simp only [if_pos h]
    rw [hvm, dictLookup_pyDictOfList_keyfun]
    simp [h]
  · rw [if_neg (by rw [hany]; simpa using h), dictLookup_orderedValueMap]
    have hmem : dl ∈ labels ++ [dl] := by simp
    rw [if_pos hmem, dictLookup_pyDictInsert_self]
    simp [h]

theorem buildNumericChoices_default_label (d : ℚ) :
    (buildNumericChoices d).default_label = _format_float d := by
  simp only [buildNumericChoices]

theorem buildNumericChoices_lookup_default (d : ℚ) :
    dictLookup (buildNumericChoices d).values (_format_float d) =
      some (if (_format_float d) ∈ ladderLabels d then parsePyFloat (_format_float d) else d) := by
  simp only [buildNumericChoices]
  exact buildChoicesPair_lookup_default d (ladderLabels d) (_format_float d) _ rfl

/-- `_extract_numeric_choices` builds its choices from the exact value of
the numeric default found under `parameter_name` in `inference`. -/
theorem _extract_numeric_choices_eq (config : PyDict) (parameter_name : String)
    (inference : PyDict) (dv : Json)
    (h1 : jsonGet config "inference" = some (Json.obj inference))
    (h2 : jsonGet inference parameter_name = some dv)
    (h3 : isNumberLike dv = true) :
    _extract_numeric_choices config parameter_name =
      some (buildNumericChoices (pyFloat dv)) := by
  unfold _extract_numeric_choices
  rw [h1]
  simp only []
  rw [h2]
  simp only [h3, if_true]

/-! ### Claim theorems: numeric extraction -/

/-- **C3 (counterexample).** For the configuration with inference
`length_scale = 1.0005`, the extraction yields `default_label = "1"`, which
is a key of `values`, but `values` maps it to `1`, not to the exact original
default `1.0005`: the claim that `values` always maps `default_label` to the
exact original default value is false. -/
theorem numeric_default_label_value_mismatch :
    _extract_numeric_choices [("inference", Json.obj [("length_scale", Json.float 1.0005)])]
        "length_scale" =
      some { values := [("0.75", 0.75), ("0.9", 0.9), ("1", 1), ("1.101", 1.101), ("1.251", 1.251)],
             default_label := "1" } ∧
    dictLookup (buildNumericChoices 1.0005).values "1" = some 1 ∧ (1 : ℚ) ≠ 1.0005 := by
  with_unfolding_all decide

/-- **C3 (amended).** For every configuration whose nested `inference`
mapping has a numeric default `d` for a parameter, the extracted
`NumericChoices` satisfies: `default_label` is a key of `values`; when
`default_label` does not occur among the formatted ladder labels it is
appended and maps to the exact original default `d`; when it does occur,
it maps to the float parsed back from the label itself, which can differ
from `d`. -/
theorem numeric_default_label_key_and_value
    (config : PyDict) (parameter_name : String) (inference : PyDict) (dv : Json)
    (h1 : jsonGet config "inference" = some (Json.obj inference))
    (h2 : jsonGet inference parameter_name = some dv)
    (h3 : isNumberLike dv = true) :
    ∃ nc, _extract_numeric_choices config parameter_name = some nc ∧
      (dictLookup nc.values nc.default_label).isSome = true ∧
      dictLookup nc.values nc.default_label =
        some (if nc.default_label ∈ ladderLabels (pyFloat dv)
          then parsePyFloat nc.default_label else pyFloat dv) := by
  refine ⟨buildNumericChoices (pyFloat dv),
    _extract_numeric_choices_eq config parameter_name inference dv h1 h2 h3, ?_, ?_⟩
  · rw [buildNumericChoices_default_label, buildNumericChoices_lookup_default]
    rfl
  · rw [buildNumericChoices_default_label, buildNumericChoices_lookup_default]

/-- Witness for C3 (amended): the configuration with `length_scale = 1.0`
from the repository's own test data. -/
theorem numeric_default_label_key_and_value_witness :
    ∃ nc, _extract_numeric_choices [("inference", Json.obj [("length_scale", Json.float 1.0)])]
        "length_scale" = some nc ∧
      (dictLookup nc.values nc.default_label).isSome = true ∧
      dictLookup nc.values nc.default_label =
        some (if nc.default_label ∈ ladderLabels (pyFloat (Json.float 1.0))
          then parsePyFloat nc.default_label else pyFloat (Json.float 1.0)) :=
  numeric_default_label_key_and_value
    [("inference", Json.obj [("length_scale", Json.float 1.0)])]
    "length_scale" [("length_scale", Json.float 1.0)] (Json.float 1.0) rfl rfl rfl

/-- **C7 (counterexample).** For the configuration with inference
`length_scale = -1`, all five ladder candidates clamp to `0`, but the
`default_label` entry `"-1"` is appended carrying the raw default `-1 < 0`:
the claim that no entry of `values` is negative is false. -/
theorem numeric_values_negative_default_entry :
    _extract_numeric_choices [("inference", Json.obj [("length_scale", Json.float (-1))])]
        "length_scale" =
      some { values := [("0", 0), ("-1", -1)], default_label := "-1" } ∧
    ("-1", (-1 : ℚ)) ∈ (buildNumericChoices (-1)).values ∧ ((-1 : ℚ) < 0) := by
  with_unfolding_all decide

/-- **C7 (amended).** Every ladder candidate equals
`max(0, round(d * factor, 5))` and is therefore non-negative; every entry of
`values` is non-negative except possibly the `default_label` entry, which
carries the raw default; in particular, when the configured default is
non-negative, no entry of `values` is negative. -/
theorem numeric_variations_nonneg
    (config : PyDict) (parameter_name : String) (inference : PyDict) (dv : Json)
    (nc : NumericChoices)
    (h1 : jsonGet config "inference" = some (Json.obj inference))
    (h2 : jsonGet inference parameter_name = some dv)
    (h3 : isNumberLike dv = true)
    (h4 : _extract_numeric_choices config parameter_name = some nc) :
    (∀ v ∈ _generate_numeric_variations (pyFloat dv), 0 ≤ v) ∧
    (∀ p ∈ nc.values, 0 ≤ p.2 ∨ p.2 = pyFloat dv) ∧
    (0 ≤ pyFloat dv → ∀ p ∈ nc.values, 0 ≤ p.2) := by
  rw [_extract_numeric_choices_eq config parameter_name inference dv h1 h2 h3,
    Option.some_inj] at h4
  subst h4
  refine ⟨_generate_numeric_variations_nonneg _, buildNumericChoices_values_cases _, ?_⟩
  intro hd p hp
  rcases buildNumericChoices_values_cases _ p hp with h | h
  · exact h
  · rw [h]; exact hd

/-- Witness for C7 (amended): the configuration with `noise_scale = 0.667`
from the repository's own test data. -/
theorem numeric_variations_nonneg_witness :
    (∀ v ∈ _generate_numeric_variations (pyFloat (Json.float 0.667)), 0 ≤ v) ∧
    (∀ p ∈ (buildNumericChoices (pyFloat (Json.float 0.667))).values,
      0 ≤ p.2 ∨ p.2 = pyFloat (Json.float 0.667)) ∧
    (0 ≤ pyFloat (Json.float 0.667) →
      ∀ p ∈ (buildNumericChoices (pyFloat (Json.float 0.667))).values, 0 ≤ p.2) :=
  numeric_variations_nonneg
    [("inference", Json.obj [("noise_scale", Json.float 0.667)])]
    "noise_scale" [("noise_scale", Json.float 0.667)] (Json.float 0.667)
    (buildNumericChoices (pyFloat (Json.float 0.667))) rfl rfl rfl
    (_extract_numeric_choices_eq [("inference", Json.obj [("noise_scale", Json.float 0.667)])]
      "noise_scale" [("noise_scale", Json.float 0.667)] (Json.float 0.667) rfl rfl rfl)

/-- **C8.** For the configuration with inference `length_scale = 1.2`, the
generated candidates are `{0.9, 1.08, 1.2, 1.32, 1.5}`; the resulting
`values` mapping carries the labels `"0.9" "1.08" "1.2" "1.32" "1.5"` in
ascending numeric order, each mapping to the corresponding value, and
`default_label` is `"1.2"` and present as a key. -/
theorem extract_numeric_choices_example_1_2 :
    _generate_numeric_variations 1.2 = [0.9, 1.08, 1.2, 1.32, 1.5] ∧
    _extract_numeric_choices [("inference", Json.obj [("length_scale", Json.float 1.2)])]
        "length_scale" =
      some { values := [("0.9", 0.9), ("1.08", 1.08), ("1.2", 1.2), ("1.32", 1.32), ("1.5", 1.5)],
             default_label := "1.2" } ∧
    dictLookup (buildNumericChoices 1.2).values "1.2" = some 1.2 := by
  with_unfolding_all decide

/-! ### Speaker extraction lemmas -/

instance speakerIndexLeTotal : IsTotal (String × Int) (fun a b => a.2 ≤ b.2) :=
  ⟨fun a b => Int.le_total a.2 b.2⟩

instance speakerIndexLeTrans : IsTrans (String × Int) (fun a b => a.2 ≤ b.2) :=
  ⟨fun _ _ _ h₁ h₂ => le_trans h₁ h₂⟩

theorem mapM_int_items (m : List (String × Int)) :
    (m.map (fun p => (p.1, Json.int p.2))).mapM
        (fun kv => (pyInt kv.2).map (fun n => (kv.1, n))) = some m := by
  induction m with
  | nil => rfl
  | cons x rest ih =>
    rw [List.map_cons, List.mapM_cons, ih]
    rfl

theorem mapM_isSome_of_all {m : List (String × Json)}
    (h : ∀ p ∈ m, (pyInt p.2).isSome = true) :
    ∃ items : List (String × Int),
      m.mapM (fun kv => (pyInt kv.2).map (fun n => (kv.1, n))) = some items ∧
      items.length = m.length := by
  induction m with
  | nil => exact ⟨[], rfl, rfl⟩
  | cons x rest ih =>
    rcases ih (fun p hp => h p (List.mem_cons_of_mem _ hp)) with ⟨items, hit, hlen⟩
    rcases Option.isSome_iff_exists.1 (h x (List.mem_cons_self _ _)) with ⟨n, hn⟩
    refine ⟨(x.1, n) :: items, ?_, by simp [hlen]⟩
    rw [List.mapM_cons, hn, hit]
    rfl

theorem pyDictOfList_ne_nil {l : List (String × α)} (h : l ≠ []) :
    pyDictOfList l ≠ [] := by
  suffices hs : ∀ (l acc : List (String × α)), acc ≠ [] ∨ l ≠ [] →
      l.foldl (fun a kv => pyDictInsert a kv.1 kv.2) acc ≠ [] by
    exact hs l [] (Or.inr h)
  intro l
  induction l with
  | nil =>
    intro acc hx
    rcases hx with hx | hx
    · simpa using hx
    · exact absurd rfl hx
  | cons x rest ih =>
    intro acc _
    rw [List.foldl_cons]
    exact ih _ (Or.inl (pyDictInsert_ne_nil _ _ _))

theorem _extract_speaker_choices_eval (config : PyDict) (m : List (String × Int))
    (hmap : jsonGet config "speaker_id_map" =
      some (Json.obj (m.map (fun p => (p.1, Json.int p.2)))))
    (hne : m ≠ []) (hnd : (m.map Prod.fst).Nodup)
    {x : String × Int} {t : List (String × Int)}
    (hxt : List.insertionSort (fun a b => a.2 ≤ b.2) m = x :: t) :
    _extract_speaker_choices config = Except.ok (x :: t, some x.1) := by
  have hlen : (m.map (fun p => (p.1, Json.int p.2))).length ≠ 0 := by
    simpa [List.length_eq_zero] using hne
  have hnds : ((x :: t).map Prod.fst).Nodup := by
    rw [← hxt]
    exact ((List.perm_insertionSort _ m).map Prod.fst).nodup_iff.2 hnd
  unfold _extract_speaker_choices
  rw [hmap]
  simp only []
  rw [if_pos hlen, mapM_int_items m]
  simp only []
  rw [hxt, pyDictOfList_nodup _ hnds]
  simp only [List.head?_cons]

/-! ### Claim theorems: speaker extraction -/

/-- **C4.** For every configuration with a non-empty `speaker_id_map`
mapping labels to integer indices (with distinct labels, as in a Python
dict), speaker extraction succeeds and returns the entries sorted by index
ascending — the iteration order of `speaker_choices` is ascending in the
index — and `default_speaker` is the label mapped to the smallest index. -/
theorem speaker_choices_sorted_by_index
    (config : PyDict) (m : List (String × Int))
    (hmap : jsonGet config "speaker_id_map" =
      some (Json.obj (m.map (fun p => (p.1, Json.int p.2)))))
    (hne : m ≠ []) (hnd : (m.map Prod.fst).Nodup) :
    ∃ choices dflt idx,
      _extract_speaker_choices config = Except.ok (choices, some dflt) ∧
      choices.Perm m ∧
      (choices.map Prod.snd).Sorted (· ≤ ·) ∧
      choices.head? = some (dflt, idx) ∧
      (dflt, idx) ∈ m ∧ ∀ p ∈ m, idx ≤ p.2 := by
  have hperm : (List.insertionSort (fun a b => a.2 ≤ b.2) m).Perm m :=
    List.perm_insertionSort _ m
  have hsorted : List.Sorted (fun a b => a.2 ≤ b.2)
      (List.insertionSort (fun a b => a.2 ≤ b.2) m) :=
    List.sorted_insertionSort _ m
  have hsne : List.insertionSort (fun a b => a.2 ≤ b.2) m ≠ [] := by
    intro h
    exact hne (List.Perm.eq_nil (h ▸ hperm).symm)
  obtain ⟨x, t, hxt⟩ := List.exists_cons_of_ne_nil hsne
  rw [hxt] at hperm hsorted
  refine ⟨x :: t, x.1, x.2,
    _extract_speaker_choices_eval config m hmap hne hnd hxt, hperm, ?_, by simp, ?_, ?_⟩
  · rw [List.Sorted, List.pairwise_map]
    exact hsorted
  · exact hperm.subset (List.mem_cons_self _ _)
  · intro p hp
    rcases List.mem_cons.1 (hperm.mem_iff.2 hp : p ∈ x :: t) with h | h
    · rw [h]
    · exact List.rel_of_sorted_cons hsorted p h

/-- Witness for C4: the two-speaker map from the repository's own tests. -/
theorem speaker_choices_sorted_by_index_witness :
    ∃ choices dflt idx,
      _extract_speaker_choices
          [("speaker_id_map", Json.obj [("alice", Json.int 0), ("bob", Json.int 1)])] =
        Except.ok (choices, some dflt) ∧
      choices.Perm [("alice", 0), ("bob", 1)] ∧
      (choices.map Prod.snd).Sorted (· ≤ ·) ∧
      choices.head? = some (dflt, idx) ∧
      (dflt, idx) ∈ [(("alice" : String), (0 : Int)), ("bob", 1)] ∧
      ∀ p ∈ [(("alice" : String), (0 : Int)), ("bob", 1)], idx ≤ p.2 :=
  speaker_choices_sorted_by_index
    [("speaker_id_map", Json.obj [("alice", Json.int 0), ("bob", Json.int 1)])]
    [("alice", 0), ("bob", 1)] rfl (by decide) (by decide)

/-- Whether a configuration has a dict-valued, non-empty `speaker_id_map`
(the first branch condition of `_extract_speaker_choices`). -/
def hasNonemptySpeakerMap (config : PyDict) : Bool :=
  match jsonGet config "speaker_id_map" with
  | some (Json.obj m) => m.length ≠ 0
  | _ => false

/-- **C9.** For every configuration with no non-empty `speaker_id_map`:
speaker extraction returns the `num_speakers` fallback; when the
configuration has an integer `num_speakers = n > 1`, that is exactly the `n`
choices `"Speaker 0" .. "Speaker {n-1}"` mapped to indices `0 .. n-1` with
default `"Speaker 0"`; otherwise it is empty choices and an absent
default. -/
theorem speaker_fallback_num_speakers (config : PyDict)
    (h : hasNonemptySpeakerMap config = false) :
    _extract_speaker_choices config = Except.ok (numSpeakersFallback config) ∧
    (∀ n : Int, jsonGet config "num_speakers" = some (Json.int n) → 1 < n →
      numSpeakersFallback config =
        ((List.range n.toNat).map (fun idx : ℕ => ("Speaker " ++ toString idx, (idx : Int))),
          some "Speaker 0") ∧
      ((List.range n.toNat).map
          (fun idx : ℕ => ("Speaker " ++ toString idx, (idx : Int)))).length = n.toNat) ∧
    ((∀ n : Int, jsonGet config "num_speakers" = some (Json.int n) → n ≤ 1) →
      numSpeakersFallback config = ([], none)) := by
  refine ⟨?_, ?_, ?_⟩
  · unfold _extract_speaker_choices
    unfold hasNonemptySpeakerMap at h
    rcases hg : jsonGet config "speaker_id_map" with _ | j
    · rfl
    · cases j <;> simp only []
      rename_i m
      rw [hg] at h
      simp only [] at h
      rw [if_neg (by simpa using h)]
  · intro n hn h1
    unfold numSpeakersFallback
    rw [hn]
    simp only [if_pos h1]
    exact ⟨trivial, by rw [List.length_map, List.length_range]⟩
  · intro hn
    unfold numSpeakersFallback
    rcases hg : jsonGet config "num_speakers" with _ | j
    · rfl
    · cases j <;> simp only []
      rename_i n
      rw [if_neg (not_lt.2 (hn n hg))]

/-- Witness for C9: a configuration with `num_speakers = 3` and no
`speaker_id_map`, as in the repository's own tests. -/
theorem speaker_fallback_num_speakers_witness :
    hasNonemptySpeakerMap [("num_speakers", Json.int 3)] = false ∧
    _extract_speaker_choices [("num_speakers", Json.int 3)] =
      Except.ok ([("Speaker 0", 0), ("Speaker 1", 1), ("Speaker 2", 2)], some "Speaker 0") := by
  have h := speaker_fallback_num_speakers [("num_speakers", Json.int 3)] rfl
  refine ⟨rfl, ?_⟩
  rw [h.1, (h.2.1 3 rfl (by decide)).1]
  rfl

/-- Whether every value of a present dict-valued `speaker_id_map` is
convertible by Python `int()` (int, float, bool or digit string). -/
def speakerMapConvertible (config : PyDict) : Bool :=
  match jsonGet config "speaker_id_map" with
  | some (Json.obj m) => m.all (fun kv => (pyInt kv.2).isSome)
  | _ => true

/-- **C5 (counterexample).** `parse_voice_config` raises (models the
`TypeError` of `int(None)`) on a configuration whose `speaker_id_map` holds
a non-convertible value: the claim that it never raises for any mapping of
string keys to JSON-like values is false. -/
theorem parse_voice_config_raises_on_bad_speaker_value :
    parse_voice_config "voice" [("speaker_id_map", Json.obj [("speaker", Json.null)])] =
      Except.error "invalid speaker index" := rfl

/-- **C5 (amended).** `parse_voice_config` never raises as long as every
value of a present dict-valued `speaker_id_map` is `int()`-convertible;
missing or malformed `inference`, `num_speakers`, a parameter default inside
`inference`, or a non-dict `speaker_id_map` all degrade to empty speaker
choices / an absent numeric parameter entry rather than failing. -/
theorem parse_voice_config_ok_of_convertible (voice_name : String) (config : PyDict)
    (h : speakerMapConvertible config = true) :
    (parse_voice_config voice_name config).isOk = true := by
  have hext : (_extract_speaker_choices config).isOk = true := by
    unfold speakerMapConvertible at h
    unfold _extract_speaker_choices
    rcases hg : jsonGet config "speaker_id_map" with _ | j
    · rfl
    · rw [hg] at h
      cases j <;> simp only []
      all_goals try rfl
      rename_i m
      by_cases hlen : m.length ≠ 0
      · rw [if_pos hlen]
        simp only [List.all_eq_true] at h
        rcases mapM_isSome_of_all (fun p hp => h p hp) with ⟨items, hit, hlenit⟩
        rw [hit]
        simp only []
        rcases hh : (pyDictOfList (List.insertionSort (fun a b => a.2 ≤ b.2) items)).head? with _ | kv
        · exfalso
          have hin : items ≠ [] := by
            intro hz
            apply hlen
            rw [← hlenit, hz]
            rfl
          have hsne : List.insertionSort (fun a b => a.2 ≤ b.2) items ≠ [] := by
            intro hz
            have hperm := List.perm_insertionSort (fun a b : String × Int => a.2 ≤ b.2) items
            rw [hz] at hperm
            exact hin (List.Perm.eq_nil hperm.symm)
          exact pyDictOfList_ne_nil hsne (List.head?_eq_none_iff.1 hh)
        · rfl
      · rw [if_neg hlen]
        rfl
  unfold parse_voice_config
  rcases he : _extract_speaker_choices config with e | sc
  · rw [he] at hext
    simp [Except.isOk, Except.toBool] at hext
  · rfl

/-- Witness for C5 (amended): the full two-speaker configuration from the
repository's own tests parses successfully. -/
theorem parse_voice_config_ok_of_convertible_witness :
    (parse_voice_config "pt_test"
        [("speaker_id_map", Json.obj [("alice", Json.int 0), ("bob", Json.int 1)]),
         ("inference", Json.obj [("length_scale", Json.float 1.0)])]).isOk = true :=
  parse_voice_config_ok_of_convertible "pt_test"
    [("speaker_id_map", Json.obj [("alice", Json.int 0), ("bob", Json.int 1)]),
     ("inference", Json.obj [("length_scale", Json.float 1.0)])] rfl

/-- **C6 (code bug).** `ensure_text_within_limit` computes
`max_length = limit or config.MAX_TEXT_LENGTH`, and `0` is falsy in Python:
an explicitly provided limit of `0` is silently replaced by the default
`8000`, so the call with text `"a"` and limit `0` returns normally even
though the length `1` exceeds the limit `0` — contradicting the function's
own docstring ("Raises ValueError if the text length is greater than the
limit").  A genuinely positive limit behaves as documented, as the last
conjunct shows. -/
theorem ensure_text_within_limit_zero_limit_divergence :
    ensure_text_within_limit "a" (some 0) = Except.ok () ∧
    (0 : Int) < ("a".length : Int) ∧
    ensure_text_within_limit "a" none = Except.ok () ∧
    ensure_text_within_limit "ab" (some 1) =
      Except.error "O texto é muito grande para uma única síntese. Considere dividir o conteúdo em partes menores." :=
  ⟨rfl, by decide, rfl, rfl⟩

/-! ### Sanitizer lemmas: character set -/

/-- The characters that may appear in sanitized output: letters, digits,
allow-listed punctuation, and the plain space. -/
def SafeChar (c : Char) : Prop :=
  ucat c = UCat.L ∨ ucat c = UCat.N ∨ c ∈ ALLOWED_PUNCTUATION.data ∨ c = ' '

theorem sanitizeChar_safe {a c : Char} (h : c ∈ sanitizeChar a) : SafeChar c := by
  by_cases h1 : ucat a = UCat.C
  · rw [sanitizeChar, if_pos h1] at h
    exact absurd h (List.not_mem_nil c)
  · by_cases h2 : ucat a = UCat.L ∨ ucat a = UCat.N
    · rw [sanitizeChar, if_neg h1, if_pos h2] at h
      simp only [List.mem_singleton] at h
      subst h
      rcases h2 with h2 | h2
      · exact Or.inl h2
      · exact Or.inr (Or.inl h2)
    · by_cases h3 : a ∈ ALLOWED_PUNCTUATION.data
      · rw [sanitizeChar, if_neg h1, if_neg h2, if_pos h3] at h
        simp only [List.mem_singleton] at h
        subst h
        exact Or.inr (Or.inr (Or.inl h3))
      · by_cases h4 : ucat a = UCat.P ∧ a = '…'
        · rw [sanitizeChar, if_neg h1, if_neg h2, if_neg h3, if_pos h4] at h
          simp at h
          subst h
          exact Or.inr (Or.inr (Or.inl (by decide)))
        · by_cases h5 : ucat a = UCat.Z
          · rw [sanitizeChar, if_neg h1, if_neg h2, if_neg h3, if_neg h4, if_pos h5] at h
            simp only [List.mem_singleton] at h
            subst h
            exact Or.inr (Or.inr (Or.inr rfl))
          · rw [sanitizeChar, if_neg h1, if_neg h2, if_neg h3, if_neg h4, if_neg h5] at h
            exact absurd h (List.not_mem_nil c)

theorem head?_dropWhile_not {p : Char → Bool} {l : List Char} {c : Char}
    (h : (l.dropWhile p).head? = some c) : p c = false := by
  induction l with
  | nil => simp at h
  | cons a t ih =>
    rw [List.dropWhile_cons] at h
    by_cases hp : p a = true
    · rw [if_pos hp] at h
      exact ih h
    · rw [if_neg hp] at h
      simp only [List.head?_cons, Option.some_inj] at h
      subst h
      simpa using hp

theorem mem_multiDotsAux {c : Char} :
    ∀ (l : List Char) (k : ℕ), c ∈ multiDotsAux k l → c ∈ l ∨ c = '.' := by
  intro l
  induction l with
  | nil =>
    intro k h
    right
    rw [multiDotsAux, emitDots] at h
    exact List.eq_of_mem_replicate h
  | cons a rest ih =>
    intro k h
    rw [multiDotsAux] at h
    split at h
    · rcases ih _ h with h | h
      · exact Or.inl (List.mem_cons_of_mem _ h)
      · exact Or.inr h
    · rcases List.mem_append.1 h with h | h
      · exact Or.inr (List.eq_of_mem_replicate (by simpa [emitDots] using h))
      · rcases List.mem_cons.1 h with h | h
        · exact Or.inl (h ▸ List.mem_cons_self _ _)
        · rcases ih _ h with h | h
          · exact Or.inl (List.mem_cons_of_mem _ h)
          · exact Or.inr h

theorem mem_replaceEllipsisList {c : Char} :
    ∀ l : List Char, c ∈ replaceEllipsisList l → c ∈ l ∨ c = '.' := by
  intro l
  induction l with
  | nil => intro h; simp [replaceEllipsisList] at h
  | cons a rest ih =>
    intro h
    rw [replaceEllipsisList] at h
    rcases List.mem_append.1 h with h | h
    · split at h
      · simp at h
        exact Or.inr h
      · simp only [List.mem_singleton] at h
        exact Or.inl (h ▸ List.mem_cons_self _ _)
    · rcases ih h with h | h
      · exact Or.inl (List.mem_cons_of_mem _ h)
      · exact Or.inr h

theorem mem_whitespaceSubAux {c : Char} :
    ∀ (l : List Char) (b : Bool), c ∈ whitespaceSubAux b l → c ∈ l ∨ c = ' ' := by
  intro l
  induction l with
  | nil => intro b h; simp [whitespaceSubAux] at h
  | cons a rest ih =>
    intro b h
    rw [whitespaceSubAux] at h
    split at h
    · rcases List.mem_append.1 h with h | h
      · right
        split at h
        · simp at h
        · simpa using h
      · rcases ih _ h with h | h
        · exact Or.inl (List.mem_cons_of_mem _ h)
        · exact Or.inr h
    · rcases List.mem_cons.1 h with h | h
      · exact Or.inl (h ▸ List.mem_cons_self _ _)
      · rcases ih _ h with h | h
        · exact Or.inl (List.mem_cons_of_mem _ h)
        · exact Or.inr h

theorem mem_pyStrip {c : Char} {l : List Char} (h : c ∈ pyStrip l) : c ∈ l := by
  unfold pyStrip at h
  rw [List.mem_reverse] at h
  have h1 := (List.dropWhile_sublist (l := (l.dropWhile isPythonSpace).reverse) isPythonSpace).subset h
  rw [List.mem_reverse] at h1
  exact (List.dropWhile_sublist (l := l) isPythonSpace).subset h1

/-! ### Sanitizer lemmas: whitespace structure -/

theorem whitespaceSubAux_true_head {l : List Char} {c : Char}
    (h : (whitespaceSubAux true l).head? = some c) : isPythonSpace c = false := by
  induction l with
  | nil => simp [whitespaceSubAux] at h
  | cons a rest ih =>
    rw [whitespaceSubAux] at h
    split at h
    · simpa using ih (by simpa using h)
    · rename_i ha
      simp only [List.head?_cons, Option.some_inj] at h
      subst h
      simpa using ha

theorem whitespaceSubAux_chain (l : List Char) (b : Bool) :
    (whitespaceSubAux b l).Chain'
      (fun x y => ¬(isPythonSpace x = true ∧ isPythonSpace y = true)) := by
  induction l generalizing b with
  | nil => simp [whitespaceSubAux]
  | cons a rest ih =>
    rw [whitespaceSubAux]
    split
    · split
      · simpa using ih true
      · rw [List.singleton_append, List.chain'_cons']
        refine ⟨?_, ih true⟩
        intro y hy
        rw [whitespaceSubAux_true_head hy]
        simp
    · rw [List.chain'_cons']
      rename_i ha
      refine ⟨?_, ih false⟩
      intro y _
      simp [ha]

theorem pyStrip_chain {R : Char → Char → Prop} (hsymm : ∀ a b, R a b → R b a)
    {l : List Char} (h : l.Chain' R) : (pyStrip l).Chain' R := by
  unfold pyStrip
  have h1 : (l.dropWhile isPythonSpace).Chain' R :=
    h.suffix (List.dropWhile_suffix _)
  have h2 : ((l.dropWhile isPythonSpace).reverse).Chain' R := by
    rw [List.chain'_reverse]
    exact h1.imp (fun a b hab => hsymm a b hab)
  have h3 : (((l.dropWhile isPythonSpace).reverse).dropWhile isPythonSpace).Chain' R :=
    h2.suffix (List.dropWhile_suffix _)
  rw [List.chain'_reverse]
  exact h3.imp (fun a b hab => hsymm a b hab)

theorem getLast?_of_suffix {l₁ l₂ : List Char} (h : l₁ <:+ l₂) (hne : l₁ ≠ []) :
    l₂.getLast? = l₁.getLast? := by
  rcases h with ⟨u, rfl⟩
  exact List.getLast?_append_of_ne_nil u hne

theorem pyStrip_head {l : List Char} {c : Char}
    (h : (pyStrip l).head? = some c) : isPythonSpace c = false := by
  unfold pyStrip at h
  rw [List.head?_reverse] at h
  have hne : ((l.dropWhile isPythonSpace).reverse.dropWhile isPythonSpace) ≠ [] := by
    intro hz
    rw [hz] at h
    simp at h
  rw [← getLast?_of_suffix (List.dropWhile_suffix _) hne, List.getLast?_reverse] at h
  exact head?_dropWhile_not h

theorem pyStrip_getLast {l : List Char} {c : Char}
    (h : (pyStrip l).getLast? = some c) : isPythonSpace c = false := by
  unfold pyStrip at h
  rw [List.getLast?_reverse] at h
  exact head?_dropWhile_not h

/-- Every character of sanitized output is a letter, a digit, allow-listed
punctuation, or the plain space. -/
theorem sanitize_chars_safe (s : String) : ∀ c ∈ (sanitize_text s).data, SafeChar c := by
  intro c hc
  unfold sanitize_text at hc
  split at hc
  · simp at hc
  · have hc' : c ∈ pyStrip (whitespaceSub (replaceEllipsisList (multiDotsSub
        ((unicodeNormalizeNFC (htmlTagSub (htmlUnescapeList s.data))).flatMap
          sanitizeChar)))) := hc
    have h1 := mem_pyStrip hc'
    unfold whitespaceSub at h1
    rcases mem_whitespaceSubAux _ _ h1 with h2 | h2
    case inr => exact Or.inr (Or.inr (Or.inr h2))
    rcases mem_replaceEllipsisList _ h2 with h3 | h3
    case inr =>
      subst h3
      exact Or.inr (Or.inr (Or.inl (by decide)))
    unfold multiDotsSub at h3
    rcases mem_multiDotsAux _ _ h3 with h4 | h4
    case inr =>
      subst h4
      exact Or.inr (Or.inr (Or.inl (by decide)))
    rcases List.mem_flatMap.1 h4 with ⟨a, _, hmem⟩
    exact sanitizeChar_safe hmem

/-- Sanitized output never has two adjacent whitespace characters. -/
theorem sanitize_chain_no_two_spaces (s : String) :
    (sanitize_text s).data.Chain'
      (fun x y => ¬(isPythonSpace x = true ∧ isPythonSpace y = true)) := by
  unfold sanitize_text
  split
  · simp
  · refine pyStrip_chain (fun a b hab h => hab ⟨h.2, h.1⟩) ?_
    exact whitespaceSubAux_chain _ false

/-- Sanitized output has no leading and no trailing whitespace. -/
theorem sanitize_ends_no_space (s : String) :
    (∀ c, (sanitize_text s).data.head? = some c → isPythonSpace c = false) ∧
    (∀ c, (sanitize_text s).data.getLast? = some c → isPythonSpace c = false) := by
  unfold sanitize_text
  split
  · constructor <;> intro c hc <;> simp at hc
  · exact ⟨fun c hc => pyStrip_head hc, fun c hc => pyStrip_getLast hc⟩

/-! ### Claim theorems: sanitizer character set -/

theorem allowed_punctuation_ucat :
    ∀ c ∈ ALLOWED_PUNCTUATION.data, ucat c = UCat.P := by decide

/-- **C1.** For every input string, the output of `sanitize_text` contains
only letters (category `L`), digits (category `N`), characters of the fixed
allow-listed punctuation set, and single space characters; no control
character, symbol, mark, or unlisted character ever appears; there are never
two consecutive spaces, and no leading or trailing whitespace. -/
theorem sanitize_text_output_charset (s : String) :
    (∀ c ∈ (sanitize_text s).data,
      (ucat c = UCat.L ∨ ucat c = UCat.N ∨ c ∈ ALLOWED_PUNCTUATION.data ∨ c = ' ') ∧
      ucat c ≠ UCat.C ∧ ucat c ≠ UCat.S ∧ ucat c ≠ UCat.M) ∧
    (sanitize_text s).data.Chain' (fun x y => ¬(x = ' ' ∧ y = ' ')) ∧
    (∀ c, (sanitize_text s).data.head? = some c → isPythonSpace c = false) ∧
    (∀ c, (sanitize_text s).data.getLast? = some c → isPythonSpace c = false) := by
  refine ⟨?_, ?_, (sanitize_ends_no_space s).1, (sanitize_ends_no_space s).2⟩
  · intro c hc
    have hs := sanitize_chars_safe s c hc
    refine ⟨hs, ?_⟩
    rcases hs with h | h | h | h
    · rw [h]; exact ⟨by decide, by decide, by decide⟩
    · rw [h]; exact ⟨by decide, by decide, by decide⟩
    · rw [allowed_punctuation_ucat c h]
      exact ⟨by decide, by decide, by decide⟩
    · subst h
      exact ⟨by decide, by decide, by decide⟩
  · refine (sanitize_chain_no_two_spaces s).imp ?_
    intro x y hxy hc
    exact hxy ⟨by rw [hc.1]; decide, by rw [hc.2]; decide⟩

/-- **C10.** For every input string, the output of `sanitize_text` never
contains `<`, `>`, or `&`: the tag characters and the ampersand are neither
letters, digits, members of the allow-listed punctuation set, nor the
space, so no HTML tag survives sanitization and no HTML entity can be
re-formed in the output. -/
theorem sanitize_text_no_html_chars (s : String) :
    '<' ∉ (sanitize_text s).data ∧ '>' ∉ (sanitize_text s).data ∧
    '&' ∉ (sanitize_text s).data := by
  refine ⟨fun h => ?_, fun h => ?_, fun h => ?_⟩
  · have := sanitize_chars_safe s _ h
    unfold SafeChar at this
    revert this
    decide
  · have := sanitize_chars_safe s _ h
    unfold SafeChar at this
    revert this
    decide
  · have := sanitize_chars_safe s _ h
    unfold SafeChar at this
    revert this
    decide

/-! ### Sanitizer lemmas: runs of periods -/

/-- Bookkeeping check that every maximal run of periods has length at most
three, with `k` periods already pending. -/
def dotRunOKAux : ℕ → List Char → Bool
  | k, [] => k ≤ 3
  | k, c :: rest =>
    if c = '.' then dotRunOKAux (k + 1) rest
    else (decide (k ≤ 3) && dotRunOKAux 0 rest)

theorem dotRunOKAux_le_three {l : List Char} :
    ∀ {j : ℕ}, dotRunOKAux j l = true → j ≤ 3 := by
  induction l with
  | nil =>
    intro j h
    rw [dotRunOKAux] at h
    exact Nat.le_of_ble_eq_true (by simpa using h)
  | cons c rest ih =>
    intro j h
    rw [dotRunOKAux] at h
    split at h
    · have := ih h
      omega
    · simp only [Bool.and_eq_true, decide_eq_true_eq] at h
      exact h.1

theorem dotRunOKAux_anti {l : List Char} :
    ∀ {j k : ℕ}, k ≤ j → dotRunOKAux j l = true → dotRunOKAux k l = true := by
  induction l with
  | nil =>
    intro j k hk h
    rw [dotRunOKAux] at h ⊢
    simp only [decide_eq_true_eq] at h ⊢
    omega
  | cons c rest ih =>
    intro j k hk h
    rw [dotRunOKAux] at h ⊢
    split at h
    · rename_i hc
      rw [if_pos hc]
      exact ih (by omega) h
    · rename_i hc
      rw [if_neg hc]
      simp only [Bool.and_eq_true, decide_eq_true_eq] at h ⊢
      exact ⟨by omega, h.2⟩

theorem dotRunOKAux_tail {c : Char} {t : List Char}
    (h : dotRunOKAux 0 (c :: t) = true) : dotRunOKAux 0 t = true := by
  rw [dotRunOKAux] at h
  split at h
  · exact dotRunOKAux_anti (Nat.zero_le 1) h
  · simp only [Bool.and_eq_true] at h
    exact h.2

theorem dotRunOKAux_suffix {s l : List Char} (hs : s <:+ l)
    (h : dotRunOKAux 0 l = true) : dotRunOKAux 0 s = true := by
  rcases hs with ⟨u, rfl⟩
  induction u with
  | nil => exact h
  | cons c u ih => exact ih (dotRunOKAux_tail h)

theorem dotRunOKAux_append_left {u v : List Char} :
    ∀ {j : ℕ}, dotRunOKAux j (u ++ v) = true → dotRunOKAux j u = true := by
  induction u with
  | nil =>
    intro j h
    rw [dotRunOKAux]
    simpa using dotRunOKAux_le_three h
  | cons c u ih =>
    intro j h
    rw [List.cons_append, dotRunOKAux] at h
    rw [dotRunOKAux]
    split at h
    · rename_i hc
      rw [if_pos hc]
      exact ih h
    · rename_i hc
      rw [if_neg hc]
      simp only [Bool.and_eq_true] at h ⊢
      exact ⟨h.1, ih h.2⟩

theorem dotRunOKAux_front {s l : List Char} (hs : s <+: l)
    (h : dotRunOKAux 0 l = true) : dotRunOKAux 0 s = true := by
  rcases hs with ⟨t, rfl⟩
  exact dotRunOKAux_append_left h

theorem dotRunOKAux_replicate_append (m : ℕ) (l : List Char) :
    ∀ j, dotRunOKAux j (List.replicate m '.' ++ l) = dotRunOKAux (j + m) l := by
  induction m with
  | zero => intro j; rfl
  | succ m ih =>
    intro j
    rw [List.replicate_succ, List.cons_append, dotRunOKAux, if_pos rfl, ih]
    congr 1
    omega

theorem multiDotsAux_dotRunOK :
    ∀ (l : List Char) (k : ℕ), dotRunOKAux 0 (multiDotsAux k l) = true := by
  intro l
  induction l with
  | nil =>
    intro k
    rw [multiDotsAux, emitDots, ← List.append_nil (List.replicate _ '.'),
      dotRunOKAux_replicate_append]
    rw [dotRunOKAux]
    split <;> simp
    omega
  | cons a rest ih =>
    intro k
    rw [multiDotsAux]
    split
    · exact ih _
    · rename_i ha
      rw [emitDots, dotRunOKAux_replicate_append, dotRunOKAux, if_neg ha]
      simp only [Bool.and_eq_true, decide_eq_true_eq]
      refine ⟨?_, ih 0⟩
      split <;> omega

theorem multiDotsAux_eq_of_dotRunOK :
    ∀ (l : List Char) (k : ℕ), dotRunOKAux k l = true →
      multiDotsAux k l = List.replicate k '.' ++ l := by
  intro l
  induction l with
  | nil =>
    intro k h
    rw [dotRunOKAux] at h
    simp only [decide_eq_true_eq] at h
    rw [multiDotsAux, emitDots, if_neg (by omega), List.append_nil]
  | cons a rest ih =>
    intro k h
    rw [dotRunOKAux] at h
    rw [multiDotsAux]
    split at h
    · rename_i ha
      rw [if_pos ha, ih _ h, List.replicate_succ' , List.append_assoc]
      subst ha
      rfl
    · rename_i ha
      simp only [Bool.and_eq_true, decide_eq_true_eq] at h
      rw [if_neg ha, ih _ h.2, emitDots, if_neg (by omega)]
      rfl

theorem whitespaceSubAux_dotRunOK :
    ∀ (l : List Char) (j : ℕ) (b : Bool), (b = true → j = 0) →
      dotRunOKAux j l = true → dotRunOKAux j (whitespaceSubAux b l) = true := by
  intro l
  induction l with
  | nil => intro j b _ h; exact h
  | cons a rest ih =>
    intro j b hb h
    rw [whitespaceSubAux]
    rw [dotRunOKAux] at h
    by_cases hsp : isPythonSpace a = true
    · have ha : ¬(a = '.') := by
        intro hz
        rw [hz] at hsp
        exact absurd hsp (by decide)
      rw [if_pos hsp]
      rw [if_neg ha] at h
      simp only [Bool.and_eq_true, decide_eq_true_eq] at h
      cases b with
      | true =>
        rw [hb rfl]
        simp only [if_pos rfl, List.nil_append]
        exact ih 0 true (fun _ => rfl) h.2
      | false =>
        simp only [if_neg (by decide : ¬((false : Bool) = true)), List.singleton_append]
        rw [dotRunOKAux, if_neg (by decide : ¬(' ' = '.'))]
        simp only [Bool.and_eq_true, decide_eq_true_eq]
        exact ⟨h.1, ih 0 true (fun _ => rfl) h.2⟩
    · rw [if_neg hsp, dotRunOKAux]
      split at h
      · rename_i ha
        rw [if_pos ha]
        exact ih (j + 1) false (by simp) h
      · rename_i ha
        rw [if_neg ha]
        simp only [Bool.and_eq_true, decide_eq_true_eq] at h ⊢
        exact ⟨h.1, ih 0 false (by simp) h.2⟩

theorem reverse_dropWhile_reverse_front (p : Char → Bool) (l : List Char) :
    ((l.reverse.dropWhile p).reverse) <+: l := by
  have h1 : (l.reverse.dropWhile p) <:+ l.reverse := List.dropWhile_suffix p
  exact List.reverse_suffix.1 (by simpa using h1)

theorem pyStrip_dotRunOK {l : List Char} (h : dotRunOKAux 0 l = true) :
    dotRunOKAux 0 (pyStrip l) = true := by
  unfold pyStrip
  have h1 : dotRunOKAux 0 (l.dropWhile isPythonSpace) = true :=
    dotRunOKAux_suffix (List.dropWhile_suffix _) h
  exact dotRunOKAux_front (reverse_dropWhile_reverse_front _ _) h1

/-! ### Sanitizer lemmas: identity of each stage on already-clean text -/

theorem htmlUnescapeAux_id {l : List Char} (h : ∀ c ∈ l, c ≠ '&') :
    ∀ fuel, htmlUnescapeAux fuel l = l := by
  induction l with
  | nil => intro fuel; cases fuel <;> rfl
  | cons a rest ih =>
    intro fuel
    cases fuel with
    | zero => rfl
    | succ fuel =>
      rw [htmlUnescapeAux, if_neg (h a (List.mem_cons_self _ _)),
        ih (fun c hc => h c (List.mem_cons_of_mem _ hc)) fuel]

theorem htmlTagSubAux_id {l : List Char} (h : ∀ c ∈ l, c ≠ '<') :
    ∀ fuel, htmlTagSubAux fuel l = l := by
  induction l with
  | nil => intro fuel; cases fuel <;> rfl
  | cons a rest ih =>
    intro fuel
    cases fuel with
    | zero => rfl
    | succ fuel =>
      rw [htmlTagSubAux]
      simp only []
      rw [if_neg (h a (List.mem_cons_self _ _)),
        ih (fun c hc => h c (List.mem_cons_of_mem _ hc)) fuel]

theorem nfcAux_id {l : List Char} (h : ∀ c ∈ l, isJamoV c = false ∧ isJamoT c = false) :
    ∀ a, nfcAux a l = a :: l := by
  induction l with
  | nil => intro a; rfl
  | cons b rest ih =>
    intro a
    rw [nfcAux]
    have hb := h b (List.mem_cons_self _ _)
    have hcomp : composeHangul a b = none := by
      unfold composeHangul
      rw [if_neg (by simp [hb.1]), if_neg (by simp [hb.2])]
    rw [hcomp]
    simp only []
    rw [ih (fun c hc => h c (List.mem_cons_of_mem _ hc)) b]

theorem unicodeNormalizeNFC_id {l : List Char}
    (h : ∀ c ∈ l, isJamoV c = false ∧ isJamoT c = false) :
    unicodeNormalizeNFC l = l := by
  cases l with
  | nil => rfl
  | cons a rest =>
    rw [unicodeNormalizeNFC]
    exact nfcAux_id (fun c hc => h c (List.mem_cons_of_mem _ hc)) a

theorem sanitizeChar_id {c : Char} (h : SafeChar c) : sanitizeChar c = [c] := by
  rcases h with h | h | h | h
  · rw [sanitizeChar, if_neg (by rw [h]; decide), if_pos (Or.inl h)]
  · rw [sanitizeChar, if_neg (by rw [h]; decide), if_pos (Or.inr h)]
  · have hp := allowed_punctuation_ucat c h
    rw [sanitizeChar, if_neg (by rw [hp]; decide), if_neg (by rw [hp]; decide), if_pos h]
  · subst h
    decide

theorem flatMap_sanitizeChar_id {l : List Char} (h : ∀ c ∈ l, SafeChar c) :
    l.flatMap sanitizeChar = l := by
  induction l with
  | nil => rfl
  | cons a rest ih =>
    rw [List.flatMap_cons, sanitizeChar_id (h a (List.mem_cons_self _ _)),
      ih (fun c hc => h c (List.mem_cons_of_mem _ hc))]
    rfl

theorem control_whitespace_ucat :
    ∀ c ∈ ['\t', '\n', '\x0B', '\x0C', '\r', '\x1C', '\x1D', '\x1E', '\x1F', '\u0085'],
      ucat c = UCat.C := by decide

theorem safeChar_space_cases {c : Char} (h : SafeChar c) :
    isPythonSpace c = false ∨ c = ' ' := by
  by_cases hsp : c = ' '
  · exact Or.inr hsp
  · left
    unfold isPythonSpace
    have hz : ¬(ucat c = UCat.Z) := by
      rcases h with h | h | h | h
      · rw [h]; decide
      · rw [h]; decide
      · rw [allowed_punctuation_ucat c h]; decide
      · exact absurd h hsp
    have hctrl : ¬(c ∈ ['\t', '\n', '\x0B', '\x0C', '\r', '\x1C', '\x1D', '\x1E', '\x1F', '\u0085']) := by
      intro hm
      have hC := control_whitespace_ucat c hm
      rcases h with h | h | h | h
      · rw [h] at hC; exact absurd hC (by decide)
      · rw [h] at hC; exact absurd hC (by decide)
      · rw [allowed_punctuation_ucat c h] at hC; exact absurd hC (by decide)
      · exact absurd h hsp
    simp [hz, hctrl]

theorem whitespaceSubAux_id :
    ∀ (l : List Char) (b : Bool),
      l.Chain' (fun x y => ¬(isPythonSpace x = true ∧ isPythonSpace y = true)) →
      (∀ c ∈ l, isPythonSpace c = false ∨ c = ' ') →
      (b = true → ∀ c, l.head? = some c → isPythonSpace c = false) →
      whitespaceSubAux b l = l := by
  intro l
  induction l with
  | nil => intro b _ _ _; rfl
  | cons a rest ih =>
    intro b hchain hmem hb
    rw [whitespaceSubAux]
    by_cases hsp : isPythonSpace a = true
    · cases b with
      | true => exact absurd (hb rfl a rfl) (by simp [hsp])
      | false =>
        rw [if_pos hsp]
        simp only [if_neg (by decide : ¬((false : Bool) = true)), List.singleton_append]
        have ha : a = ' ' := by
          rcases hmem a (List.mem_cons_self _ _) with h | h
          · rw [hsp] at h; cases h
          · exact h
        rw [ih true hchain.tail (fun c hc => hmem c (List.mem_cons_of_mem _ hc)) ?_]
        · rw [ha]
        · intro _ c hc
          have := List.chain'_cons'.1 hchain
          have hr := this.1 c hc
          by_cases hcs : isPythonSpace c = true
          · exact absurd ⟨hsp, hcs⟩ hr
          · simpa using hcs
    · rw [if_neg hsp,
        ih false hchain.tail (fun c hc => hmem c (List.mem_cons_of_mem _ hc)) (by simp)]

theorem dropWhile_id_of_head {p : Char → Bool} {l : List Char}
    (h : ∀ c, l.head? = some c → p c = false) : l.dropWhile p = l := by
  cases l with
  | nil => rfl
  | cons a rest =>
    rw [List.dropWhile_cons, if_neg (by simp [h a rfl])]

theorem pyStrip_id {l : List Char}
    (hh : ∀ c, l.head? = some c → isPythonSpace c = false)
    (hl : ∀ c, l.getLast? = some c → isPythonSpace c = false) :
    pyStrip l = l := by
  unfold pyStrip
  rw [dropWhile_id_of_head hh]
  rw [dropWhile_id_of_head (fun c hc => hl c (by rwa [List.head?_reverse] at hc))]
  exact List.reverse_reverse l

theorem replaceEllipsisList_id {l : List Char} (h : ∀ c ∈ l, c ≠ '…') :
    replaceEllipsisList l = l := by
  induction l with
  | nil => rfl
  | cons a rest ih =>
    rw [replaceEllipsisList, if_neg (h a (List.mem_cons_self _ _)),
      ih (fun c hc => h c (List.mem_cons_of_mem _ hc))]
    rfl

theorem safeChar_not_amp {c : Char} (h : SafeChar c) : c ≠ '&' := by
  intro he
  subst he
  unfold SafeChar at h
  revert h
  decide

theorem safeChar_not_lt {c : Char} (h : SafeChar c) : c ≠ '<' := by
  intro he
  subst he
  unfold SafeChar at h
  revert h
  decide

theorem safeChar_not_hellip {c : Char} (h : SafeChar c) : c ≠ '…' := by
  intro he
  subst he
  unfold SafeChar at h
  revert h
  decide

/-- The run check holds for sanitized output: the multi-dot substitution
leaves no run of four or more periods and the later stages cannot merge
runs. -/
theorem sanitize_dotRunOK (s : String) : dotRunOKAux 0 (sanitize_text s).data = true := by
  unfold sanitize_text
  split
  · rfl
  · show dotRunOKAux 0 (pyStrip _) = true
    apply pyStrip_dotRunOK
    show dotRunOKAux 0 (whitespaceSubAux false _) = true
    apply whitespaceSubAux_dotRunOK _ 0 false (by simp)
    rw [replaceEllipsisList_id]
    · exact multiDotsAux_dotRunOK _ 0
    · intro c hc
      rcases mem_multiDotsAux _ _ hc with hm | hm
      · rcases List.mem_flatMap.1 hm with ⟨a, _, hmem⟩
        exact safeChar_not_hellip (sanitizeChar_safe hmem)
      · subst hm
        decide

/-- A string whose characters are safe, whose whitespace is single interior
spaces, and whose period runs are short, is a fixed point of
`sanitize_text`, provided it contains no composable Hangul jamo. -/
theorem sanitize_text_fixed {T : String}
    (hsafe : ∀ c ∈ T.data, SafeChar c)
    (hchain : T.data.Chain' (fun x y => ¬(isPythonSpace x = true ∧ isPythonSpace y = true)))
    (hhead : ∀ c, T.data.head? = some c → isPythonSpace c = false)
    (hlast : ∀ c, T.data.getLast? = some c → isPythonSpace c = false)
    (hdot : dotRunOKAux 0 T.data = true)
    (hjam : ∀ c ∈ T.data, isJamoV c = false ∧ isJamoT c = false) :
    sanitize_text T = T := by
  by_cases hempty : T = ""
  · rw [hempty]
    rfl
  · unfold sanitize_text
    rw [if_neg hempty]
    show String.mk (pyStrip (whitespaceSub (replaceEllipsisList (multiDotsSub
      ((unicodeNormalizeNFC (htmlTagSub (htmlUnescapeList T.data))).flatMap
        sanitizeChar))))) = T
    rw [show htmlUnescapeList T.data = T.data from
      htmlUnescapeAux_id (fun c hc => safeChar_not_amp (hsafe c hc)) _]
    rw [show htmlTagSub T.data = T.data from
      htmlTagSubAux_id (fun c hc => safeChar_not_lt (hsafe c hc)) _]
    rw [unicodeNormalizeNFC_id hjam]
    rw [flatMap_sanitizeChar_id hsafe]
    rw [show multiDotsSub T.data = T.data from by
      rw [multiDotsSub, multiDotsAux_eq_of_dotRunOK _ 0 hdot]
      rfl]
    rw [replaceEllipsisList_id (fun c hc => safeChar_not_hellip (hsafe c hc))]
    rw [show whitespaceSub T.data = T.data from
      whitespaceSubAux_id T.data false hchain
        (fun c hc => safeChar_space_cases (hsafe c hc)) (by simp)]
    rw [pyStrip_id hhead hlast]

/-! ### Claim theorems: idempotence -/

/-- **C2 (counterexample).** Sanitization is not idempotent on every input:
in `"ᄀ✂ᅡ"` the scissors symbol separates a Hangul leading-consonant jamo
from a vowel jamo.  The first pass drops the symbol, making the two jamo
adjacent; the second pass's NFC normalization composes them into the
precomposed syllable `"가"`, so the output changes again. -/
theorem sanitize_text_not_idempotent_on_jamo :
    sanitize_text (sanitize_text "ᄀ✂ᅡ") ≠ sanitize_text "ᄀ✂ᅡ" := by decide

/-- **C2 (amended).** Sanitization is idempotent on every input whose
sanitized output contains no Hangul conjoining jamo (code points
U+1100–U+11FF); a second pass then reproduces the output unchanged. -/
theorem sanitize_text_idempotent_of_no_jamo (s : String)
    (h : ∀ c ∈ (sanitize_text s).data, ¬(0x1100 ≤ c.toNat ∧ c.toNat ≤ 0x11FF)) :
    sanitize_text (sanitize_text s) = sanitize_text s := by
  apply sanitize_text_fixed (sanitize_chars_safe s) (sanitize_chain_no_two_spaces s)
    (sanitize_ends_no_space s).1 (sanitize_ends_no_space s).2 (sanitize_dotRunOK s)
  intro c hc
  have hr := h c hc
  constructor
  · by_cases hv : isJamoV c = true
    · exfalso
      apply hr
      unfold isJamoV at hv
      simp only [decide_eq_true_eq] at hv
      omega
    · simpa using hv
  · by_cases hv : isJamoT c = true
    · exfalso
      apply hr
      unfold isJamoT at hv
      simp only [decide_eq_true_eq] at hv
      omega
    · simpa using hv

/-- Witness for C2 (amended): the accented sentence from the repository's
own tests, whose sanitized output contains no Hangul jamo. -/
theorem sanitize_text_idempotent_witness :
    (∀ c ∈ (sanitize_text "Olá, coração!").data, ¬(0x1100 ≤ c.toNat ∧ c.toNat ≤ 0x11FF)) ∧
    sanitize_text (sanitize_text "Olá, coração!") = sanitize_text "Olá, coração!" :=
  ⟨by decide, sanitize_text_idempotent_of_no_jamo "Olá, coração!" (by decide)⟩
